import Mathlib

/-!
# Verification of the C9 data-automation pipeline

Shallow embedding of the core computations of the repository
(`automate_generation_data.py`, `automate_settlement.py`,
`automate_consumption_data.py`) and proofs about them.

Numeric values (pandas floats) are modelled as rationals `ℚ`; timestamps are
modelled as minutes since an epoch (`ℕ`); calendar dates as day numbers (`ℕ`).
Site identifiers stay `String`; Python's `str.upper()` on the ASCII site names
is modelled by `upKey` below.  The pandas `sort_values` calls (quicksort,
unstable on ties) are modelled by the deterministic stable `insertionSort`;
no theorem below depends on the order of tied rows.
-/

/-- ASCII upper-casing of one character, as Python `str.upper` acts on the
ASCII site names appearing in this repository. -/
def upChar (c : Char) : Char :=
  if 'a' ≤ c ∧ c ≤ 'z' then Char.ofNat (c.toNat - 32) else c

/-- The case-folded key of a string: `s.upper()` viewed as a character list. -/
def upKey (s : String) : List Char := s.data.map upChar

/-- `needle.isPrefixOf`-based substring test on character lists, modelling
Python's `needle in hay`. -/
def containsKey (hay needle : List Char) : Bool :=
  hay.tails.any (fun t => needle.isPrefixOf t)

/-- The fixed priority list of `merge_generation_consumption` and
`apply_monthly_banking_settlement` (`automate_generation_data.py` line 116,
`automate_settlement.py` line 77). -/
def priorityUnits : List String :=
  ["MALLESWARAM", "SAHAKAR NAGAR", "HRBR UNIT", "OLD AIRPORT ROAD"]

/-! ## Allocation engine (`merge_generation_consumption`, lines 131-165)

One 15-minute slot: the consumption rows of the slot, in the original row
order of the consumption sheet, and the slot's total generation
`generation_available`.  The mutable columns `Generation_value`,
`Surplus_Demand`, `Surplus_Generation` of the pandas frame are modelled as
functions from the row position (the frame's integer index). -/

/-- One consumption row of a slot: `Unit` and `Consumption`. -/
structure Site where
  unit : String
  cons : ℚ
  deriving DecidableEq, Repr

/-- The mutable per-slot state: the three written columns plus the
`generation_available` pool. -/
structure AllocState where
  gen : ℕ → ℚ
  surDem : ℕ → ℚ
  surGen : ℕ → ℚ
  pool : ℚ

/-- `slot_df["Unit"].str.upper() == unit.upper()` for one row (line 141):
case-insensitive *equality* match. -/
def matchesUnit (u : String) (s : Site) : Bool := upKey s.unit == upKey u

/-- The first row matching a priority unit (`.values[0]` of the mask,
line 143). -/
def findPrio (sites : List Site) (u : String) : Option (ℕ × Site) :=
  sites.enum.find? (fun p => matchesUnit u p.2)

/-- All row positions matching a priority unit (the boolean mask of
line 141). -/
def prioIdxs (sites : List Site) (u : String) : List ℕ :=
  (sites.enum.filter (fun p => matchesUnit u p.2)).map Prod.fst

/-- Write value `v` into column `f` at every position of `idxs`
(`slot_df.loc[mask, col] = v`). -/
def setAll (f : ℕ → ℚ) (idxs : List ℕ) (v : ℚ) : ℕ → ℚ :=
  idxs.foldl (fun g i => Function.update g i v) f

/-- The body of the priority loop for one priority unit (lines 141-148). -/
def priorityStep (sites : List Site) (st : AllocState) (u : String) : AllocState :=
  match findPrio sites u with
  | none => st
  | some p =>
      let consVal := p.2.cons
      let assigned := min consVal st.pool
      { gen := setAll st.gen (prioIdxs sites u) assigned
        surDem :=
          if assigned < consVal then
            setAll st.surDem (prioIdxs sites u) (consVal - assigned)
          else st.surDem
        surGen := st.surGen
        pool := st.pool - assigned }

/-- The priority loop (lines 138-148); `generation_available <= 0` breaks. -/
def priorityPass (sites : List Site) : List String → AllocState → AllocState
  | [], st => st
  | u :: us, st =>
      if st.pool ≤ 0 then st
      else priorityPass sites us (priorityStep sites st u)

/-- `unit.upper() in [u.upper() for u in priority_units]` (line 149). -/
def isPriorityUnit (s : String) : Bool :=
  priorityUnits.any (fun u => upKey s == upKey u)

/-- The non-priority rows of the slot, in original row order (line 149). -/
def nonPrioRows (sites : List Site) : List (ℕ × Site) :=
  sites.enum.filter (fun p => ! isPriorityUnit p.2.unit)

/-- `remaining.sort_values(by="Consumption", ascending=False)` (line 150),
modelled as a stable descending sort. -/
def sortByConsDesc (l : List (ℕ × Site)) : List (ℕ × Site) :=
  l.insertionSort (fun a b => b.2.cons ≤ a.2.cons)

/-- The body of the non-priority loop for one row (lines 151-160); an
exhausted pool records the full consumption as `Surplus_Demand`. -/
def remainingStep (st : AllocState) (p : ℕ × Site) : AllocState :=
  if st.pool ≤ 0 then
    { st with surDem := Function.update st.surDem p.1 p.2.cons }
  else
    let assigned := min p.2.cons st.pool
    { gen := Function.update st.gen p.1 assigned
      surDem :=
        if assigned < p.2.cons then
          Function.update st.surDem p.1 (p.2.cons - assigned)
        else st.surDem
      surGen := st.surGen
      pool := st.pool - assigned }

/-- Slot state before any allocation: all written columns zero, pool equal to
the slot's `Day Gen (KWh)` value (lines 133-137). -/
def initState (g : ℚ) : AllocState :=
  { gen := fun _ => 0, surDem := fun _ => 0, surGen := fun _ => 0, pool := g }

/-- State after the priority loop followed by the non-priority loop. -/
def passesState (g : ℚ) (sites : List Site) : AllocState :=
  (sortByConsDesc (nonPrioRows sites)).foldl remainingStep
    (priorityPass sites priorityUnits (initState g))

/-- Lines 161-164: a strictly positive remainder is written as
`Surplus_Generation` of the last row of the slot frame (`slot_df.index[-1]`,
i.e. the last row in original order). -/
def finalizeSurplus (sites : List Site) (st : AllocState) : AllocState :=
  if 0 < st.pool ∧ sites ≠ [] then
    { st with
      surGen := Function.update st.surGen (sites.length - 1) st.pool
      pool := 0 }
  else st

/-- One output row of the allocation engine (columns of line 172-176). -/
structure OutRow where
  unit : String
  cons : ℚ
  gen : ℚ
  surGen : ℚ
  surDem : ℚ
  deriving DecidableEq, Repr

/-- Read the final state back into rows, in original row order. -/
def outputRows (sites : List Site) (st : AllocState) : List OutRow :=
  sites.enum.map (fun p => ⟨p.2.unit, p.2.cons, st.gen p.1, st.surGen p.1, st.surDem p.1⟩)

/-- The allocation engine for one 15-minute slot
(`merge_generation_consumption`, lines 131-165). -/
def mergeSlot (g : ℚ) (sites : List Site) : List OutRow :=
  outputRows sites (finalizeSurplus sites (passesState g sites))

/-! ### Sequential (fold) presentation of the same engine

The engine processes the slot's rows one after another in a definite order
— priority matches in the priority list's order, then the remaining rows by
descending consumption — drawing down one shared pool.  `seqStep` is the
per-row step; `iterOrder` is the processing order. -/

/-- Per-row step of the sequential presentation: a priority row is skipped
once the pool is exhausted (the loop of lines 138-148 `break`s), a
non-priority row records its full consumption as unmet demand. -/
def seqStep (st : AllocState) (p : ℕ × Site) : AllocState :=
  if isPriorityUnit p.2.unit then
    if st.pool ≤ 0 then st
    else
      let assigned := min p.2.cons st.pool
      { gen := Function.update st.gen p.1 assigned
        surDem :=
          if assigned < p.2.cons then
            Function.update st.surDem p.1 (p.2.cons - assigned)
          else st.surDem
        surGen := st.surGen
        pool := st.pool - assigned }
  else remainingStep st p

/-- The rows examined by the priority loop, in the priority list's order. -/
def prioOrder (sites : List Site) : List (ℕ × Site) :=
  priorityUnits.filterMap (findPrio sites)

/-- The engine's processing order: priority matches first, then the
remaining rows by descending consumption. -/
def iterOrder (sites : List Site) : List (ℕ × Site) :=
  prioOrder sites ++ sortByConsDesc (nonPrioRows sites)

/-- State after sequentially processing the slot's rows in `iterOrder`. -/
def seqState (g : ℚ) (sites : List Site) : AllocState :=
  (iterOrder sites).foldl seqStep (initState g)

/-- Sequential presentation of the allocation engine. -/
def mergeSlotSeq (g : ℚ) (sites : List Site) : List OutRow :=
  outputRows sites (finalizeSurplus sites (seqState g sites))

/-! ### The substring-matching variant described by the specification

§4.1 of the specification describes the priority selection of the allocation
engine as a case-insensitive *substring* match.  This variant differs from
the engine only in that one predicate. -/

/-- Substring-based priority match: the priority identifier occurs,
case-insensitively, inside the site's key. -/
def substrMatches (u : String) (s : Site) : Bool :=
  containsKey (upKey s.unit) (upKey u)

/-- `findPrio` with the substring match. -/
def findPrioSub (sites : List Site) (u : String) : Option (ℕ × Site) :=
  sites.enum.find? (fun p => substrMatches u p.2)

/-- Priority membership under the substring match. -/
def isPrioSub (s : String) : Bool :=
  priorityUnits.any (fun u => substrMatches u ⟨s, 0⟩)

/-- Processing order under the substring match. -/
def iterOrderSub (sites : List Site) : List (ℕ × Site) :=
  priorityUnits.filterMap (findPrioSub sites) ++
    sortByConsDesc (sites.enum.filter (fun p => ! isPrioSub p.2.unit))

/-- Per-row step under the substring match. -/
def seqStepSub (st : AllocState) (p : ℕ × Site) : AllocState :=
  if isPrioSub p.2.unit then
    if st.pool ≤ 0 then st
    else
      let assigned := min p.2.cons st.pool
      { gen := Function.update st.gen p.1 assigned
        surDem :=
          if assigned < p.2.cons then
            Function.update st.surDem p.1 (p.2.cons - assigned)
          else st.surDem
        surGen := st.surGen
        pool := st.pool - assigned }
  else remainingStep st p

/-- The allocation engine as the specification's §4.1 describes it:
substring-based priority selection, otherwise identical. -/
def mergeSlotSub (g : ℚ) (sites : List Site) : List OutRow :=
  outputRows sites
    (finalizeSurplus sites ((iterOrderSub sites).foldl seqStepSub (initState g)))

/-! ## Generic helpers -/

/-- Sum of a column `f` over the row positions `0 .. n-1`. -/
def sumIdx (f : ℕ → ℚ) (n : ℕ) : ℚ := ((List.range n).map f).sum

theorem sumIdx_succ (f : ℕ → ℚ) (n : ℕ) : sumIdx f (n + 1) = sumIdx f n + f n := by
  simp [sumIdx, List.range_succ]

theorem sumIdx_zero_fun (n : ℕ) : sumIdx (fun _ => 0) n = 0 := by
  simp [sumIdx]

theorem sumIdx_congr {f g : ℕ → ℚ} {n : ℕ} (h : ∀ i < n, f i = g i) :
    sumIdx f n = sumIdx g n := by
  induction n with
  | zero => rfl
  | succ n ih =>
      rw [sumIdx_succ, sumIdx_succ, ih (fun i hi => h i (by omega)), h n (by omega)]

theorem sumIdx_update {f : ℕ → ℚ} {i n : ℕ} (h : i < n) (v : ℚ) :
    sumIdx (Function.update f i v) n = sumIdx f n - f i + v := by
  induction n with
  | zero => omega
  | succ n ih =>
      rcases Nat.lt_succ_iff_lt_or_eq.mp h with h' | rfl
      · rw [sumIdx_succ, sumIdx_succ, ih h', Function.update_noteq (by omega)]
        ring
      · rw [sumIdx_succ, sumIdx_succ, Function.update_same,
          sumIdx_congr (g := f) (fun j hj => Function.update_noteq (by omega) _ _)]
        ring

theorem nodup_all_eq_singleton {α : Type} {l : List α} {a : α}
    (hnd : l.Nodup) (ha : a ∈ l) (h : ∀ b ∈ l, b = a) : l = [a] := by
  cases l with
  | nil => cases ha
  | cons x xs =>
      have hx : x = a := h x (by simp)
      subst hx
      cases xs with
      | nil => rfl
      | cons y ys =>
          exfalso
          have hy : y = x := h y (by simp)
          subst hy
          exact (List.nodup_cons.mp hnd).1 (by simp)

/-! ## Facts about row enumeration -/

theorem mem_enum_get? {α : Type} {l : List α} {p : ℕ × α} (h : p ∈ l.enum) :
    l.get? p.1 = some p.2 :=
  List.mem_enum_iff_get?.mp h

theorem mem_enum_lt {α : Type} {l : List α} {p : ℕ × α} (h : p ∈ l.enum) :
    p.1 < l.length := by
  have h' := mem_enum_get? h
  have h2 : l[p.1]? = some p.2 := by rw [← List.get?_eq_getElem?, h']
  obtain ⟨hlt, -⟩ := List.getElem?_eq_some.mp h2
  exact hlt

theorem enum_nodup {α : Type} (l : List α) : l.enum.Nodup := by
  have h : (l.enum.map Prod.fst).Nodup := by
    rw [List.enum_map_fst]; exact List.nodup_range _
  exact h.of_map _

/-- Under pairwise-distinct case-folded unit names, the row position is
determined by the case-folded name. -/
theorem upKey_index_inj {sites : List Site}
    (hnd : (sites.map (fun s => upKey s.unit)).Nodup)
    {p q : ℕ × Site} (hp : p ∈ sites.enum) (hq : q ∈ sites.enum)
    (h : upKey p.2.unit = upKey q.2.unit) : p = q := by
  have hp' := mem_enum_get? hp
  have hq' := mem_enum_get? hq
  have hpl := mem_enum_lt hp
  have hidx : p.1 = q.1 := by
    have hlen : p.1 < (sites.map fun s => upKey s.unit).length := by simpa using hpl
    apply List.getElem?_inj hlen hnd
    rw [List.getElem?_map, List.getElem?_map, ← List.get?_eq_getElem?,
      ← List.get?_eq_getElem?, hp', hq']
    simp [h]
  refine Prod.ext hidx ?_
  have : some p.2 = some q.2 := by rw [← hp', ← hq', hidx]
  exact Option.some.inj this

/-! ## The engine as a sequential fold over `iterOrder` -/

theorem matchesUnit_upKey {u : String} {s : Site} (h : matchesUnit u s = true) :
    upKey s.unit = upKey u := by
  simpa [matchesUnit] using h

theorem isPriorityUnit_of_matches {u : String} {s : Site}
    (hu : u ∈ priorityUnits) (h : matchesUnit u s = true) :
    isPriorityUnit s.unit = true := by
  have := matchesUnit_upKey h
  simp only [isPriorityUnit, List.any_eq_true]
  exact ⟨u, hu, by simp [this]⟩

theorem findPrio_mem_enum {sites : List Site} {u : String} {p : ℕ × Site}
    (h : findPrio sites u = some p) : p ∈ sites.enum :=
  List.mem_of_find?_eq_some h

theorem findPrio_matches {sites : List Site} {u : String} {p : ℕ × Site}
    (h : findPrio sites u = some p) : matchesUnit u p.2 = true := by
  have h' : List.find? (fun q => matchesUnit u q.2) sites.enum = some p := h
  simpa using List.find?_some h'

/-- Under pairwise-distinct case-folded unit names, a found priority match is
the only row the mask selects. -/
theorem filter_matches_eq_singleton {sites : List Site}
    (hnd : (sites.map (fun s => upKey s.unit)).Nodup)
    {u : String} {p : ℕ × Site} (h : findPrio sites u = some p) :
    sites.enum.filter (fun q => matchesUnit u q.2) = [p] := by
  apply nodup_all_eq_singleton
  · exact (enum_nodup sites).filter _
  · exact List.mem_filter.mpr ⟨findPrio_mem_enum h, findPrio_matches h⟩
  · intro b hb
    obtain ⟨hb1, hb2⟩ := List.mem_filter.mp hb
    exact upKey_index_inj hnd hb1 (findPrio_mem_enum h)
      ((matchesUnit_upKey hb2).trans (matchesUnit_upKey (findPrio_matches h)).symm)

theorem prioIdxs_eq_singleton {sites : List Site}
    (hnd : (sites.map (fun s => upKey s.unit)).Nodup)
    {u : String} {p : ℕ × Site} (h : findPrio sites u = some p) :
    prioIdxs sites u = [p.1] := by
  rw [prioIdxs, filter_matches_eq_singleton hnd h]
  rfl

/-- Folding `seqStep` over priority rows with an exhausted pool is a no-op:
this is the `break` of the priority loop. -/
theorem foldl_seqStep_of_pool_nonpos {items : List (ℕ × Site)} {st : AllocState}
    (hpr : ∀ p ∈ items, isPriorityUnit p.2.unit = true) (hpool : st.pool ≤ 0) :
    items.foldl seqStep st = st := by
  induction items with
  | nil => rfl
  | cons p ps ih =>
      have hstep : seqStep st p = st := by
        simp [seqStep, hpr p (by simp), if_pos hpool]
      rw [List.foldl_cons, hstep]
      exact ih (fun q hq => hpr q (by simp [hq]))

/-- On non-priority rows, `seqStep` is exactly the non-priority loop body. -/
theorem foldl_seqStep_eq_remaining {items : List (ℕ × Site)}
    (h : ∀ p ∈ items, isPriorityUnit p.2.unit = false) (st : AllocState) :
    items.foldl seqStep st = items.foldl remainingStep st := by
  induction items generalizing st with
  | nil => rfl
  | cons p ps ih =>
      have hstep : seqStep st p = remainingStep st p := by
        simp [seqStep, h p (by simp)]
      rw [List.foldl_cons, List.foldl_cons, hstep]
      exact ih (fun q hq => h q (by simp [hq])) _

theorem mem_filterMap_findPrio_prio {sites : List Site} {us : List String}
    (hus : ∀ u ∈ us, u ∈ priorityUnits) {p : ℕ × Site}
    (hp : p ∈ us.filterMap (findPrio sites)) : isPriorityUnit p.2.unit = true := by
  obtain ⟨u, hu, hfind⟩ := List.mem_filterMap.mp hp
  exact isPriorityUnit_of_matches (hus u hu) (findPrio_matches hfind)

/-- The priority loop is the fold of `seqStep` over its matched rows, taken
in the priority list's order. -/
theorem priorityPass_eq_foldl {sites : List Site}
    (hnd : (sites.map (fun s => upKey s.unit)).Nodup) :
    ∀ (us : List String), (∀ u ∈ us, u ∈ priorityUnits) → ∀ st : AllocState,
      priorityPass sites us st = (us.filterMap (findPrio sites)).foldl seqStep st := by
  intro us
  induction us with
  | nil => intro _ st; rfl
  | cons u us ih =>
      intro hus st
      have hus' : ∀ v ∈ us, v ∈ priorityUnits := fun v hv => hus v (by simp [hv])
      by_cases hpool : st.pool ≤ 0
      · rw [priorityPass, if_pos hpool,
          foldl_seqStep_of_pool_nonpos
            (fun p hp => mem_filterMap_findPrio_prio hus hp) hpool]
      · rw [priorityPass, if_neg hpool]
        cases hfind : findPrio sites u with
        | none =>
            have hrw : List.filterMap (findPrio sites) (u :: us) =
                List.filterMap (findPrio sites) us := by
              simp [List.filterMap_cons, hfind]
            have hstep : priorityStep sites st u = st := by
              simp [priorityStep, hfind]
            rw [hstep, hrw]
            exact ih hus' st
        | some p =>
            have hprio : isPriorityUnit p.2.unit = true :=
              isPriorityUnit_of_matches (hus u (by simp)) (findPrio_matches hfind)
            have hrw : List.filterMap (findPrio sites) (u :: us) =
                p :: List.filterMap (findPrio sites) us := by
              simp [List.filterMap_cons, hfind]
            have hstep : priorityStep sites st u = seqStep st p := by
              simp [priorityStep, hfind, seqStep, hprio, hpool,
                prioIdxs_eq_singleton hnd hfind, setAll]
            rw [hrw, List.foldl_cons, hstep]
            exact ih hus' (seqStep st p)

theorem mem_sortByConsDesc {l : List (ℕ × Site)} {p : ℕ × Site} :
    p ∈ sortByConsDesc l ↔ p ∈ l := List.mem_insertionSort _

theorem nonPrioRows_not_prio {sites : List Site} {p : ℕ × Site}
    (h : p ∈ nonPrioRows sites) : isPriorityUnit p.2.unit = false := by
  have := (List.mem_filter.mp h).2
  simpa using this

/-- The allocation engine, presented as one sequential pass over the slot's
rows in `iterOrder`, drawing down the shared pool. -/
theorem mergeSlot_eq_mergeSlotSeq (g : ℚ) (sites : List Site)
    (hnd : (sites.map (fun s => upKey s.unit)).Nodup) :
    mergeSlot g sites = mergeSlotSeq g sites := by
  unfold mergeSlot mergeSlotSeq passesState seqState iterOrder prioOrder
  rw [List.foldl_append,
    ← priorityPass_eq_foldl hnd priorityUnits (fun u hu => hu),
    foldl_seqStep_eq_remaining
      (fun p hp => nonPrioRows_not_prio (mem_sortByConsDesc.mp hp))]

/-! ## Facts about the processing order -/

theorem mem_iterOrder_get? {sites : List Site} {p : ℕ × Site}
    (hp : p ∈ iterOrder sites) : sites.get? p.1 = some p.2 := by
  rcases List.mem_append.mp hp with h | h
  · obtain ⟨u, -, hfind⟩ := List.mem_filterMap.mp h
    exact mem_enum_get? (findPrio_mem_enum hfind)
  · exact mem_enum_get? (List.mem_filter.mp (mem_sortByConsDesc.mp h)).1

theorem mem_iterOrder_lt {sites : List Site} {p : ℕ × Site}
    (hp : p ∈ iterOrder sites) : p.1 < sites.length := by
  have h2 : sites[p.1]? = some p.2 := by
    rw [← List.get?_eq_getElem?, mem_iterOrder_get? hp]
  obtain ⟨hlt, -⟩ := List.getElem?_eq_some.mp h2
  exact hlt

theorem prioOrder_aux_idx_nodup (sites : List Site) :
    ∀ us : List String, (us.map upKey).Nodup →
      ((us.filterMap (findPrio sites)).map Prod.fst).Nodup := by
  intro us
  induction us with
  | nil => intro _; simp
  | cons u us ih =>
      intro hnd
      rw [List.map_cons] at hnd
      obtain ⟨hu, hus⟩ := List.nodup_cons.mp hnd
      cases hfind : findPrio sites u with
      | none => simpa [List.filterMap_cons, hfind] using ih hus
      | some p =>
          rw [List.filterMap_cons]
          simp only [hfind, List.map_cons, List.nodup_cons]
          refine ⟨?_, ih hus⟩
          intro hmem
          obtain ⟨q, hq, hq1⟩ := List.exists_of_mem_map hmem
          obtain ⟨v, hv, hfv⟩ := List.mem_filterMap.mp hq
          have hpq : p.2 = q.2 := by
            have h1 := mem_enum_get? (findPrio_mem_enum hfind)
            have h2 := mem_enum_get? (findPrio_mem_enum hfv)
            rw [hq1] at h2
            exact Option.some.inj (h1.symm.trans h2)
          have huv : upKey u = upKey v := by
            have m1 := matchesUnit_upKey (findPrio_matches hfind)
            have m2 := matchesUnit_upKey (findPrio_matches hfv)
            rw [hpq] at m1
            exact m1.symm.trans m2
          exact hu (huv ▸ List.mem_map_of_mem upKey hv)

theorem filter_enum_idx_nodup (sites : List Site) (pred : ℕ × Site → Bool) :
    ((sites.enum.filter pred).map Prod.fst).Nodup := by
  have hsub : List.Sublist ((sites.enum.filter pred).map Prod.fst)
      (sites.enum.map Prod.fst) :=
    (List.filter_sublist _).map _
  exact hsub.nodup (by rw [List.enum_map_fst]; exact List.nodup_range _)

theorem priorityUnits_upKey_nodup : (priorityUnits.map upKey).Nodup := by decide

theorem iterOrder_idx_nodup (sites : List Site) :
    ((iterOrder sites).map Prod.fst).Nodup := by
  rw [iterOrder, List.map_append, List.nodup_append]
  refine ⟨prioOrder_aux_idx_nodup sites priorityUnits priorityUnits_upKey_nodup, ?_, ?_⟩
  · have hperm : List.Perm ((sortByConsDesc (nonPrioRows sites)).map Prod.fst)
        ((nonPrioRows sites).map Prod.fst) :=
      (List.perm_insertionSort _ _).map _
    exact hperm.nodup_iff.mpr (filter_enum_idx_nodup sites _)
  · intro i hi hj
    obtain ⟨p, hp, hp1⟩ := List.exists_of_mem_map hi
    obtain ⟨q, hq, hq1⟩ := List.exists_of_mem_map hj
    have hprio : isPriorityUnit p.2.unit = true :=
      mem_filterMap_findPrio_prio (fun u hu => hu) hp
    have hnonprio : isPriorityUnit q.2.unit = false :=
      nonPrioRows_not_prio (mem_sortByConsDesc.mp hq)
    obtain ⟨u, -, hfind⟩ := List.mem_filterMap.mp hp
    have h1 := mem_enum_get? (findPrio_mem_enum hfind)
    have h2 := mem_enum_get? (List.mem_filter.mp (mem_sortByConsDesc.mp hq)).1
    rw [hp1] at h1
    rw [hq1] at h2
    have hpq : p.2 = q.2 := Option.some.inj (h1.symm.trans h2)
    rw [hpq, hnonprio] at hprio
    exact Bool.false_ne_true hprio

theorem mem_enum_of_lt {α : Type} {l : List α} {i : ℕ} (h : i < l.length) :
    (i, l.get ⟨i, h⟩) ∈ l.enum := by
  apply List.mem_enum_iff_get?.mpr
  simpa [List.get?_eq_getElem?, List.getElem?_eq_some] using h

theorem iterOrder_complete {sites : List Site}
    (hnd : (sites.map (fun s => upKey s.unit)).Nodup)
    {p : ℕ × Site} (hp : p ∈ sites.enum) : p ∈ iterOrder sites := by
  rw [iterOrder]
  by_cases hprio : isPriorityUnit p.2.unit = true
  · apply List.mem_append_left
    simp only [isPriorityUnit, List.any_eq_true] at hprio
    obtain ⟨u, hu, hbeq⟩ := hprio
    have hkey : upKey p.2.unit = upKey u := by simpa using hbeq
    have hsome : (sites.enum.find? (fun q => matchesUnit u q.2)).isSome := by
      rw [List.find?_isSome]
      exact ⟨p, hp, by simpa [matchesUnit] using hkey⟩
    obtain ⟨q, hq⟩ := Option.isSome_iff_exists.mp hsome
    have hq' : findPrio sites u = some q := hq
    have hqp : q = p :=
      upKey_index_inj hnd (findPrio_mem_enum hq') hp
        ((matchesUnit_upKey (findPrio_matches hq')).trans hkey.symm)
    exact List.mem_filterMap.mpr ⟨u, hu, hqp ▸ hq'⟩
  · apply List.mem_append_right
    apply mem_sortByConsDesc.mpr
    exact List.mem_filter.mpr ⟨hp, by simp [Bool.eq_false_iff.mpr hprio]⟩

/-! ## Invariants of the sequential pass -/

theorem seqStep_untouched (st : AllocState) {p : ℕ × Site} {i : ℕ} (h : p.1 ≠ i) :
    (seqStep st p).gen i = st.gen i ∧ (seqStep st p).surDem i = st.surDem i := by
  simp only [seqStep, remainingStep]
  split_ifs <;> simp [Function.update_noteq (Ne.symm h)]

theorem foldl_seqStep_untouched {items : List (ℕ × Site)} {i : ℕ}
    (h : ∀ p ∈ items, p.1 ≠ i) : ∀ st : AllocState,
    (items.foldl seqStep st).gen i = st.gen i ∧
      (items.foldl seqStep st).surDem i = st.surDem i := by
  induction items with
  | nil => intro st; exact ⟨rfl, rfl⟩
  | cons p ps ih =>
      intro st
      rw [List.foldl_cons]
      obtain ⟨h1, h2⟩ := ih (fun q hq => h q (by simp [hq])) (seqStep st p)
      obtain ⟨h3, h4⟩ := seqStep_untouched st (h p (by simp))
      exact ⟨h1.trans h3, h2.trans h4⟩

theorem seqStep_surGen (st : AllocState) (p : ℕ × Site) :
    (seqStep st p).surGen = st.surGen := by
  simp only [seqStep, remainingStep]
  split_ifs <;> rfl

theorem foldl_seqStep_surGen (items : List (ℕ × Site)) : ∀ st : AllocState,
    (items.foldl seqStep st).surGen = st.surGen := by
  induction items with
  | nil => intro st; rfl
  | cons p ps ih =>
      intro st
      rw [List.foldl_cons, ih, seqStep_surGen]

theorem seqStep_pool_nonneg {st : AllocState} (p : ℕ × Site) (h : 0 ≤ st.pool) :
    0 ≤ (seqStep st p).pool := by
  have hmin := min_le_right p.2.cons st.pool
  simp only [seqStep, remainingStep]
  split_ifs <;> simp <;> linarith

theorem foldl_seqStep_pool_nonneg {items : List (ℕ × Site)} : ∀ {st : AllocState},
    0 ≤ st.pool → 0 ≤ (items.foldl seqStep st).pool := by
  induction items with
  | nil => intro st h; exact h
  | cons p ps ih =>
      intro st h
      rw [List.foldl_cons]
      exact ih (seqStep_pool_nonneg p h)

/-- Conservation through the sequential pass: pool plus the allocated column
total is preserved, provided each processed row position is fresh. -/
theorem foldl_seqStep_conserve (n : ℕ) {items : List (ℕ × Site)} :
    ∀ {st : AllocState}, (items.map Prod.fst).Nodup →
      (∀ p ∈ items, p.1 < n) → (∀ p ∈ items, st.gen p.1 = 0) →
      (items.foldl seqStep st).pool + sumIdx (items.foldl seqStep st).gen n
        = st.pool + sumIdx st.gen n := by
  induction items with
  | nil => intro st _ _ _; rfl
  | cons p ps ih =>
      intro st hnd hlt hzero
      rw [List.map_cons, List.nodup_cons] at hnd
      have hfresh : ∀ q ∈ ps, (seqStep st p).gen q.1 = 0 := by
        intro q hq
        have hne : p.1 ≠ q.1 := fun h => hnd.1 (h ▸ List.mem_map_of_mem Prod.fst hq)
        rw [(seqStep_untouched st hne).1]
        exact hzero q (by simp [hq])
      rw [List.foldl_cons,
        ih hnd.2 (fun q hq => hlt q (by simp [hq])) hfresh]
      have hp0 : st.gen p.1 = 0 := hzero p (by simp)
      have hpn : p.1 < n := hlt p (by simp)
      simp only [seqStep, remainingStep]
      split_ifs <;> simp [sumIdx_update hpn, hp0]

/-- The possible final `(Generation_value, Surplus_Demand)` of one row: a
priority row skipped after pool exhaustion, a non-priority row reached with
an exhausted pool, or a row allocated from a strictly positive pool `q`. -/
def RowOutcome (s : Site) (gv sd : ℚ) : Prop :=
  (isPriorityUnit s.unit = true ∧ gv = 0 ∧ sd = 0) ∨
  (isPriorityUnit s.unit = false ∧ gv = 0 ∧ sd = s.cons) ∨
  (∃ q : ℚ, 0 < q ∧ gv = min s.cons q ∧
    sd = if min s.cons q < s.cons then s.cons - min s.cons q else 0)

theorem seqStep_outcome {st : AllocState} {p : ℕ × Site}
    (hg : st.gen p.1 = 0) (hd : st.surDem p.1 = 0) :
    RowOutcome p.2 ((seqStep st p).gen p.1) ((seqStep st p).surDem p.1) := by
  by_cases hprio : isPriorityUnit p.2.unit
  · by_cases hpool : st.pool ≤ 0
    · exact Or.inl ⟨hprio, by simp [seqStep, hprio, hpool, hg, hd]⟩
    · refine Or.inr (Or.inr ⟨st.pool, by linarith, ?_, ?_⟩)
      · simp [seqStep, hprio, hpool]
      · by_cases hlt : min p.2.cons st.pool < p.2.cons
        · simp [seqStep, hprio, hpool, hlt]
        · simp [seqStep, hprio, hpool, hlt, hd]
  · by_cases hpool : st.pool ≤ 0
    · refine Or.inr (Or.inl ⟨Bool.eq_false_iff.mpr hprio, ?_, ?_⟩)
      · simp [seqStep, remainingStep, hprio, hpool, hg]
      · simp [seqStep, remainingStep, hprio, hpool]
    · refine Or.inr (Or.inr ⟨st.pool, by linarith, ?_, ?_⟩)
      · simp [seqStep, remainingStep, hprio, hpool]
      · by_cases hlt : min p.2.cons st.pool < p.2.cons
        · simp [seqStep, remainingStep, hprio, hpool, hlt]
        · simp [seqStep, remainingStep, hprio, hpool, hlt, hd]

theorem foldl_seqStep_outcome {items : List (ℕ × Site)} :
    ∀ {st : AllocState}, (items.map Prod.fst).Nodup →
      (∀ p ∈ items, st.gen p.1 = 0 ∧ st.surDem p.1 = 0) →
      ∀ p ∈ items,
        RowOutcome p.2 ((items.foldl seqStep st).gen p.1)
          ((items.foldl seqStep st).surDem p.1) := by
  induction items with
  | nil => intro st _ _ p hp; cases hp
  | cons q qs ih =>
      intro st hnd hzero p hp
      rw [List.map_cons, List.nodup_cons] at hnd
      rw [List.foldl_cons]
      rcases List.mem_cons.mp hp with rfl | hp'
      · have hfresh : ∀ r ∈ qs, r.1 ≠ p.1 := by
          intro r hr h
          exact hnd.1 (h ▸ List.mem_map_of_mem Prod.fst hr)
        obtain ⟨h1, h2⟩ := foldl_seqStep_untouched hfresh (seqStep st p)
        rw [h1, h2]
        exact seqStep_outcome (hzero p (by simp)).1 (hzero p (by simp)).2
      · apply ih hnd.2 _ p hp'
        intro r hr
        have hne : q.1 ≠ r.1 := fun h => hnd.1 (h ▸ List.mem_map_of_mem Prod.fst hr)
        obtain ⟨h1, h2⟩ := seqStep_untouched st hne
        exact ⟨h1.trans (hzero r (by simp [hr])).1, h2.trans (hzero r (by simp [hr])).2⟩

/-! ## Assembling the slot-level facts -/

theorem outputRows_map_gen (sites : List Site) (st : AllocState) :
    ((outputRows sites st).map OutRow.gen).sum = sumIdx st.gen sites.length := by
  unfold outputRows sumIdx
  rw [List.map_map]
  have h2 : sites.enum.map (OutRow.gen ∘ fun p : ℕ × Site =>
      (⟨p.2.unit, p.2.cons, st.gen p.1, st.surGen p.1, st.surDem p.1⟩ : OutRow))
      = (sites.enum.map Prod.fst).map st.gen := by
    rw [List.map_map]; rfl
  rw [h2, List.enum_map_fst]

theorem outputRows_map_surGen (sites : List Site) (st : AllocState) :
    ((outputRows sites st).map OutRow.surGen).sum = sumIdx st.surGen sites.length := by
  unfold outputRows sumIdx
  rw [List.map_map]
  have h2 : sites.enum.map (OutRow.surGen ∘ fun p : ℕ × Site =>
      (⟨p.2.unit, p.2.cons, st.gen p.1, st.surGen p.1, st.surDem p.1⟩ : OutRow))
      = (sites.enum.map Prod.fst).map st.surGen := by
    rw [List.map_map]; rfl
  rw [h2, List.enum_map_fst]

theorem seqState_conserve (g : ℚ) (sites : List Site) :
    (seqState g sites).pool + sumIdx (seqState g sites).gen sites.length = g := by
  have hz : ∀ p ∈ iterOrder sites, (initState g).gen p.1 = 0 := fun p _ => rfl
  have h := foldl_seqStep_conserve sites.length (iterOrder_idx_nodup sites)
    (fun p hp => mem_iterOrder_lt hp) hz
  simpa [initState, sumIdx_zero_fun, seqState] using h

theorem seqState_pool_nonneg {g : ℚ} (sites : List Site) (hg : 0 ≤ g) :
    0 ≤ (seqState g sites).pool :=
  foldl_seqStep_pool_nonneg (by simpa [initState] using hg)

theorem seqState_surGen (g : ℚ) (sites : List Site) :
    (seqState g sites).surGen = fun _ => 0 :=
  foldl_seqStep_surGen _ _

theorem seqState_outcome {sites : List Site}
    (hnd : (sites.map (fun s => upKey s.unit)).Nodup) (g : ℚ)
    {i : ℕ} (h : i < sites.length) :
    RowOutcome (sites.get ⟨i, h⟩) ((seqState g sites).gen i)
      ((seqState g sites).surDem i) := by
  have hp : ((i, sites.get ⟨i, h⟩) : ℕ × Site) ∈ iterOrder sites :=
    iterOrder_complete hnd (mem_enum_of_lt h)
  exact foldl_seqStep_outcome (iterOrder_idx_nodup sites)
    (fun p _ => ⟨rfl, rfl⟩) _ hp

theorem mergeSlot_eq_output {g : ℚ} {sites : List Site}
    (hnd : (sites.map (fun s => upKey s.unit)).Nodup) :
    mergeSlot g sites = outputRows sites (finalizeSurplus sites (seqState g sites)) := by
  rw [mergeSlot_eq_mergeSlotSeq g sites hnd]; rfl

theorem finalizeSurplus_gen (sites : List Site) (st : AllocState) :
    (finalizeSurplus sites st).gen = st.gen := by
  unfold finalizeSurplus
  split_ifs <;> rfl

theorem finalizeSurplus_surDem (sites : List Site) (st : AllocState) :
    (finalizeSurplus sites st).surDem = st.surDem := by
  unfold finalizeSurplus
  split_ifs <;> rfl

theorem sumIdx_nonneg {f : ℕ → ℚ} {n : ℕ} (h : ∀ i < n, 0 ≤ f i) :
    0 ≤ sumIdx f n := by
  induction n with
  | zero => exact le_refl 0
  | succ n ih =>
      rw [sumIdx_succ]
      have h1 := ih (fun i hi => h i (by omega))
      have h2 := h n (by omega)
      linarith

theorem sumIdx_eq_zero_pointwise : ∀ (n : ℕ) (f : ℕ → ℚ),
    (∀ i < n, 0 ≤ f i) → sumIdx f n = 0 → ∀ i < n, f i = 0 := by
  intro n
  induction n with
  | zero => intro f _ _ i hi; omega
  | succ n ih =>
      intro f hpos h
      rw [sumIdx_succ] at h
      have h1 : 0 ≤ sumIdx f n := sumIdx_nonneg (fun i hi => hpos i (by omega))
      have h2 : 0 ≤ f n := hpos n (by omega)
      have hfn : f n = 0 := by linarith
      have hsum : sumIdx f n = 0 := by linarith
      intro i hi
      rcases Nat.lt_succ_iff_lt_or_eq.mp hi with hi' | rfl
      · exact ih f (fun j hj => hpos j (by omega)) hsum i hi'
      · exact hfn

theorem seqState_gen_out_of_range (g : ℚ) (sites : List Site) {i : ℕ}
    (h : sites.length ≤ i) : (seqState g sites).gen i = 0 := by
  have hni : ∀ p ∈ iterOrder sites, p.1 ≠ i :=
    fun p hp => by have := mem_iterOrder_lt hp; omega
  exact (foldl_seqStep_untouched hni (initState g)).1

theorem seqState_gen_nonneg {sites : List Site}
    (hnd : (sites.map (fun s => upKey s.unit)).Nodup)
    (hcons : ∀ s ∈ sites, 0 ≤ s.cons) (g : ℚ) :
    ∀ i, 0 ≤ (seqState g sites).gen i := by
  intro i
  by_cases hi : i < sites.length
  · rcases seqState_outcome hnd g hi with ⟨-, h, -⟩ | ⟨-, h, -⟩ | ⟨q, hq, h, -⟩ <;> rw [h]
    · exact le_min (hcons _ (List.get_mem sites i hi)) (le_of_lt hq)
  · rw [seqState_gen_out_of_range g sites (by omega)]

/-- C1: for every slot processed by the allocation engine — a nonempty list
of sites with pairwise-distinct case-folded unit names and a non-negative
slot generation — the allocated `Generation_value` column plus the recorded
`Surplus_Generation` column sums to the slot's total generation. -/
theorem mergeSlot_conservation (g : ℚ) (sites : List Site)
    (hnd : (sites.map (fun s => upKey s.unit)).Nodup)
    (hne : sites ≠ []) (hg : 0 ≤ g) :
    ((mergeSlot g sites).map OutRow.gen).sum
      + ((mergeSlot g sites).map OutRow.surGen).sum = g := by
  rw [mergeSlot_eq_output hnd, outputRows_map_gen, outputRows_map_surGen,
    finalizeSurplus_gen]
  have hcons := seqState_conserve g sites
  have hpool := seqState_pool_nonneg sites hg
  by_cases hpos : 0 < (seqState g sites).pool
  · have hfin : finalizeSurplus sites (seqState g sites)
        = { seqState g sites with
            surGen := Function.update (seqState g sites).surGen
              (sites.length - 1) (seqState g sites).pool
            pool := 0 } := by
      unfold finalizeSurplus
      rw [if_pos ⟨hpos, hne⟩]
    have hn : 0 < sites.length := List.length_pos.mpr hne
    rw [hfin]
    show sumIdx (seqState g sites).gen sites.length
      + sumIdx (Function.update (seqState g sites).surGen (sites.length - 1)
          (seqState g sites).pool) sites.length = g
    rw [seqState_surGen, sumIdx_update (by omega), sumIdx_zero_fun]
    show sumIdx (seqState g sites).gen sites.length
      + (0 - 0 + (seqState g sites).pool) = g
    linarith
  · have hfin : finalizeSurplus sites (seqState g sites) = seqState g sites := by
      unfold finalizeSurplus
      rw [if_neg (fun hc => hpos hc.1)]
    rw [hfin, seqState_surGen, sumIdx_zero_fun]
    have hzero : (seqState g sites).pool = 0 := by linarith
    linarith

/-- Witness for C1 at a concrete slot. -/
theorem mergeSlot_conservation_witness :
    (([⟨"MALLESWARAM", 2⟩, ⟨"X", 1⟩] : List Site).map (fun s => upKey s.unit)).Nodup
    ∧ (([⟨"MALLESWARAM", 2⟩, ⟨"X", 1⟩] : List Site) ≠ []) ∧ (0 ≤ (5 : ℚ))
    ∧ ((mergeSlot 5 [⟨"MALLESWARAM", 2⟩, ⟨"X", 1⟩]).map OutRow.gen).sum
        + ((mergeSlot 5 [⟨"MALLESWARAM", 2⟩, ⟨"X", 1⟩]).map OutRow.surGen).sum = 5 :=
  ⟨by decide, by decide, by norm_num,
    mergeSlot_conservation 5 _ (by decide) (by decide) (by norm_num)⟩

/-- C2 (amended): per-row guarantees of the allocation engine.  Allocation
never exceeds consumption.  `Surplus_Demand = consumption − allocated` holds
for every non-priority row, and for every row except a priority row skipped
after pool exhaustion, which keeps `Surplus_Demand = 0`.  In a slot with zero
generation every row gets zero allocation, with `Surplus_Demand` equal to the
full consumption for non-priority rows but `0` for priority rows. -/
theorem mergeSlot_demand_rule (g : ℚ) (sites : List Site)
    (hnd : (sites.map (fun s => upKey s.unit)).Nodup)
    (hcons : ∀ s ∈ sites, 0 ≤ s.cons) (hg : 0 ≤ g) :
    ∀ r ∈ mergeSlot g sites,
      r.gen ≤ r.cons ∧
      (isPriorityUnit r.unit = false →
        r.surDem = if r.gen < r.cons then r.cons - r.gen else 0) ∧
      (r.surDem = (if r.gen < r.cons then r.cons - r.gen else 0) ∨
        (isPriorityUnit r.unit = true ∧ r.gen = 0 ∧ r.surDem = 0)) ∧
      (g = 0 → r.gen = 0 ∧
        r.surDem = if isPriorityUnit r.unit = true then 0 else r.cons) := by
  intro r hr
  rw [mergeSlot_eq_output hnd, outputRows] at hr
  obtain ⟨p, hp, rfl⟩ := List.mem_map.mp hr
  have hi : p.1 < sites.length := mem_enum_lt hp
  have hget : sites.get ⟨p.1, hi⟩ = p.2 := by
    have h1 := mem_enum_get? hp
    rw [List.get?_eq_get hi] at h1
    exact Option.some.inj h1
  have hout := seqState_outcome hnd g hi
  rw [hget] at hout
  have hc : 0 ≤ p.2.cons := hcons p.2 (List.snd_mem_of_mem_enum hp)
  have hgen0 : g = 0 → (seqState g sites).gen p.1 = 0 := by
    intro h0
    subst h0
    have hconsv := seqState_conserve 0 sites
    have hpool := seqState_pool_nonneg sites le_rfl
    have hpos : ∀ j < sites.length, 0 ≤ (seqState 0 sites).gen j :=
      fun j _ => seqState_gen_nonneg hnd hcons 0 j
    have hsum0 : sumIdx (seqState 0 sites).gen sites.length = 0 := by
      have hnn := sumIdx_nonneg hpos
      linarith
    exact sumIdx_eq_zero_pointwise _ _ hpos hsum0 p.1 hi
  simp only [finalizeSurplus_gen, finalizeSurplus_surDem]
  rcases hout with ⟨hpr, hg0, hd0⟩ | ⟨hpr, hg0, hd0⟩ | ⟨q, hq, hgm, hdm⟩
  · refine ⟨by rw [hg0]; exact hc, ?_, Or.inr ⟨hpr, hg0, hd0⟩, ?_⟩
    · intro hfalse
      rw [hpr] at hfalse
      cases hfalse
    · intro _
      exact ⟨hg0, by rw [hd0, if_pos hpr]⟩
  · have hsd : (seqState g sites).surDem p.1
        = if (seqState g sites).gen p.1 < p.2.cons
            then p.2.cons - (seqState g sites).gen p.1 else 0 := by
      rw [hg0, hd0]
      by_cases h0 : (0 : ℚ) < p.2.cons
      · rw [if_pos h0]; ring
      · rw [if_neg h0]; linarith
    refine ⟨by rw [hg0]; exact hc, fun _ => hsd, Or.inl hsd, ?_⟩
    intro _
    refine ⟨hg0, ?_⟩
    rw [hd0, if_neg (by simp [hpr])]
  · refine ⟨by rw [hgm]; exact min_le_left _ _, ?_, ?_, ?_⟩
    · intro _
      rw [hgm, hdm]
    · exact Or.inl (by rw [hgm, hdm])
    · intro h0
      have hz := hgen0 h0
      have hcz : p.2.cons = 0 := by
        by_contra hne
        have hcpos : 0 < p.2.cons := lt_of_le_of_ne hc (Ne.symm hne)
        have : 0 < min p.2.cons q := lt_min hcpos hq
        rw [← hgm, hz] at this
        exact lt_irrefl 0 this
      have hming : min p.2.cons q = 0 := by
        rw [hcz]
        exact min_eq_left (le_of_lt hq)
      refine ⟨hz, ?_⟩
      rw [hdm, hming, hcz]
      simp
/-- C2 counterexample: in a slot with zero total generation, a priority site
with positive consumption receives zero allocation but also zero
`Surplus_Demand`, not its full consumption. -/
theorem mergeSlot_zeroGen_priority_cex :
    mergeSlot 0 [⟨"MALLESWARAM", 5⟩] = [⟨"MALLESWARAM", 5, 0, 0, 0⟩] ∧
    ((0 : ℚ) < 5) ∧ ¬ ((0 : ℚ) = 5 - 0) ∧ ¬ ((0 : ℚ) = 5) :=
  ⟨by decide, by norm_num, by norm_num, by norm_num⟩

/-- Witness for the amended C2, at a zero-generation slot with a priority
and a non-priority site. -/
theorem mergeSlot_demand_rule_witness :
    (([⟨"MALLESWARAM", 2⟩, ⟨"X", 1⟩] : List Site).map (fun s => upKey s.unit)).Nodup
    ∧ (∀ s ∈ ([⟨"MALLESWARAM", 2⟩, ⟨"X", 1⟩] : List Site), 0 ≤ s.cons)
    ∧ (0 ≤ (0 : ℚ))
    ∧ ((⟨"X", 1, 0, 0, 1⟩ : OutRow) ∈ mergeSlot 0 [⟨"MALLESWARAM", 2⟩, ⟨"X", 1⟩])
    ∧ ((⟨"X", 1, 0, 0, 1⟩ : OutRow).gen ≤ (⟨"X", 1, 0, 0, 1⟩ : OutRow).cons ∧
      (isPriorityUnit (⟨"X", 1, 0, 0, 1⟩ : OutRow).unit = false →
        (⟨"X", 1, 0, 0, 1⟩ : OutRow).surDem =
          if (⟨"X", 1, 0, 0, 1⟩ : OutRow).gen < (⟨"X", 1, 0, 0, 1⟩ : OutRow).cons
          then (⟨"X", 1, 0, 0, 1⟩ : OutRow).cons - (⟨"X", 1, 0, 0, 1⟩ : OutRow).gen
          else 0) ∧
      ((⟨"X", 1, 0, 0, 1⟩ : OutRow).surDem =
          (if (⟨"X", 1, 0, 0, 1⟩ : OutRow).gen < (⟨"X", 1, 0, 0, 1⟩ : OutRow).cons
          then (⟨"X", 1, 0, 0, 1⟩ : OutRow).cons - (⟨"X", 1, 0, 0, 1⟩ : OutRow).gen
          else 0) ∨
        (isPriorityUnit (⟨"X", 1, 0, 0, 1⟩ : OutRow).unit = true ∧
          (⟨"X", 1, 0, 0, 1⟩ : OutRow).gen = 0 ∧
          (⟨"X", 1, 0, 0, 1⟩ : OutRow).surDem = 0)) ∧
      ((0 : ℚ) = 0 → (⟨"X", 1, 0, 0, 1⟩ : OutRow).gen = 0 ∧
        (⟨"X", 1, 0, 0, 1⟩ : OutRow).surDem =
          if isPriorityUnit (⟨"X", 1, 0, 0, 1⟩ : OutRow).unit = true then 0
          else (⟨"X", 1, 0, 0, 1⟩ : OutRow).cons)) :=
  ⟨by decide, by decide, le_refl 0, by decide,
    mergeSlot_demand_rule 0 [⟨"MALLESWARAM", 2⟩, ⟨"X", 1⟩] (by decide) (by decide)
      (le_refl 0) ⟨"X", 1, 0, 0, 1⟩ (by decide)⟩

/-- C5 (amended): the allocation engine processes each slot as one
sequential pass, in the order: rows matched by *case-insensitive equality*
against the priority list, in the list's declared order, followed by the
remaining rows sorted by descending consumption, all drawing down the same
shared pool state. -/
theorem mergeSlot_processing_order (g : ℚ) (sites : List Site)
    (hnd : (sites.map (fun s => upKey s.unit)).Nodup) :
    mergeSlot g sites
      = outputRows sites (finalizeSurplus sites
          ((prioOrder sites ++ sortByConsDesc (nonPrioRows sites)).foldl seqStep
            (initState g))) :=
  mergeSlot_eq_mergeSlotSeq g sites hnd

/-- Witness for the amended C5 at a concrete slot. -/
theorem mergeSlot_processing_order_witness :
    (([⟨"MALLESWARAM", 2⟩, ⟨"X", 1⟩] : List Site).map (fun s => upKey s.unit)).Nodup
    ∧ mergeSlot 5 [⟨"MALLESWARAM", 2⟩, ⟨"X", 1⟩]
      = outputRows [⟨"MALLESWARAM", 2⟩, ⟨"X", 1⟩]
          (finalizeSurplus [⟨"MALLESWARAM", 2⟩, ⟨"X", 1⟩]
            ((prioOrder [⟨"MALLESWARAM", 2⟩, ⟨"X", 1⟩]
                ++ sortByConsDesc (nonPrioRows [⟨"MALLESWARAM", 2⟩, ⟨"X", 1⟩])).foldl
              seqStep (initState 5))) :=
  ⟨by decide, mergeSlot_processing_order 5 _ (by decide)⟩

/-- C5 counterexample: priority selection is an exact case-insensitive
equality match, not a substring match.  On a slot whose site key strictly
contains a priority identifier, the engine and the substring-based
procedure described by the specification produce different allocations. -/
theorem mergeSlot_substring_match_cex :
    mergeSlot 5 [⟨"MALLESWARAM UNIT", 4⟩, ⟨"X", 5⟩]
      = [⟨"MALLESWARAM UNIT", 4, 0, 0, 4⟩, ⟨"X", 5, 5, 0, 0⟩] ∧
    mergeSlotSub 5 [⟨"MALLESWARAM UNIT", 4⟩, ⟨"X", 5⟩]
      = [⟨"MALLESWARAM UNIT", 4, 4, 0, 0⟩, ⟨"X", 5, 1, 0, 4⟩] ∧
    mergeSlot 5 [⟨"MALLESWARAM UNIT", 4⟩, ⟨"X", 5⟩]
      ≠ mergeSlotSub 5 [⟨"MALLESWARAM UNIT", 4⟩, ⟨"X", 5⟩] ∧
    isPrioSub "MALLESWARAM UNIT" = true ∧
    isPriorityUnit "MALLESWARAM UNIT" = false := by
  have hf1 : findPrio [⟨"MALLESWARAM UNIT", (4:ℚ)⟩, ⟨"X", 5⟩] "MALLESWARAM" = none := by
    decide
  have hf2 : findPrio [⟨"MALLESWARAM UNIT", (4:ℚ)⟩, ⟨"X", 5⟩] "SAHAKAR NAGAR" = none := by
    decide
  have hf3 : findPrio [⟨"MALLESWARAM UNIT", (4:ℚ)⟩, ⟨"X", 5⟩] "HRBR UNIT" = none := by
    decide
  have hf4 : findPrio [⟨"MALLESWARAM UNIT", (4:ℚ)⟩, ⟨"X", 5⟩] "OLD AIRPORT ROAD" = none := by
    decide
  have hnp : sortByConsDesc (nonPrioRows [⟨"MALLESWARAM UNIT", (4:ℚ)⟩, ⟨"X", 5⟩])
      = [(1, ⟨"X", 5⟩), (0, ⟨"MALLESWARAM UNIT", 4⟩)] := by decide
  have hord : iterOrderSub [⟨"MALLESWARAM UNIT", (4:ℚ)⟩, ⟨"X", 5⟩]
      = [(0, ⟨"MALLESWARAM UNIT", 4⟩), (1, ⟨"X", 5⟩)] := by decide
  have hs1 : isPrioSub "MALLESWARAM UNIT" = true := by decide
  have hs2 : isPrioSub "X" = false := by decide
  have heval1 : mergeSlot 5 [⟨"MALLESWARAM UNIT", 4⟩, ⟨"X", 5⟩]
      = [⟨"MALLESWARAM UNIT", 4, 0, 0, 4⟩, ⟨"X", 5, 5, 0, 0⟩] := by
    rw [mergeSlot, passesState, hnp]
    norm_num [priorityPass, priorityStep, priorityUnits, hf1, hf2, hf3, hf4,
      initState, remainingStep, finalizeSurplus, outputRows, List.enum,
      List.enumFrom, Function.update_apply]
  have heval2 : mergeSlotSub 5 [⟨"MALLESWARAM UNIT", 4⟩, ⟨"X", 5⟩]
      = [⟨"MALLESWARAM UNIT", 4, 4, 0, 0⟩, ⟨"X", 5, 1, 0, 4⟩] := by
    rw [mergeSlotSub, hord]
    norm_num [seqStepSub, hs1, hs2, initState, remainingStep, finalizeSurplus,
      outputRows, List.enum, List.enumFrom, Function.update_apply]
  refine ⟨heval1, heval2, ?_, hs1, by decide⟩
  rw [heval1, heval2]
  intro hcontra
  have := List.head_eq_of_cons_eq hcontra
  rw [OutRow.mk.injEq] at this
  norm_num at this

/-- C6 counterexample: with input rows `[A, MALLESWARAM]`, the iteration
order is the priority row (position 1) first and row `A` (position 0) last,
so the claim places the positive remainder on row 0; the engine instead
writes it on position 1, the last row in the slot's original order. -/
theorem mergeSlot_surplus_location_cex :
    ((iterOrder [⟨"A", 2⟩, ⟨"MALLESWARAM", 3⟩]).map Prod.fst) = [1, 0] ∧
    mergeSlot 10 [⟨"A", 2⟩, ⟨"MALLESWARAM", 3⟩]
      = [⟨"A", 2, 2, 0, 0⟩, ⟨"MALLESWARAM", 3, 3, 5, 0⟩] ∧
    (10 : ℚ) - ((mergeSlot 10 [⟨"A", 2⟩, ⟨"MALLESWARAM", 3⟩]).map OutRow.gen).sum = 5 ∧
    ((0 : ℚ) < 5) ∧
    ¬ ((⟨"A", 2, 2, 0, 0⟩ : OutRow).surGen = 5) := by
  have hf1 : findPrio [⟨"A", (2:ℚ)⟩, ⟨"MALLESWARAM", 3⟩] "MALLESWARAM"
      = some (1, ⟨"MALLESWARAM", 3⟩) := by decide
  have hf2 : findPrio [⟨"A", (2:ℚ)⟩, ⟨"MALLESWARAM", 3⟩] "SAHAKAR NAGAR" = none := by
    decide
  have hf3 : findPrio [⟨"A", (2:ℚ)⟩, ⟨"MALLESWARAM", 3⟩] "HRBR UNIT" = none := by decide
  have hf4 : findPrio [⟨"A", (2:ℚ)⟩, ⟨"MALLESWARAM", 3⟩] "OLD AIRPORT ROAD" = none := by
    decide
  have hidx : prioIdxs [⟨"A", (2:ℚ)⟩, ⟨"MALLESWARAM", 3⟩] "MALLESWARAM" = [1] := by decide
  have hnp : sortByConsDesc (nonPrioRows [⟨"A", (2:ℚ)⟩, ⟨"MALLESWARAM", 3⟩])
      = [(0, ⟨"A", 2⟩)] := by decide
  have hnenil : ([⟨"A", (2:ℚ)⟩, ⟨"MALLESWARAM", 3⟩] : List Site) ≠ [] := by decide
  have heval : mergeSlot 10 [⟨"A", 2⟩, ⟨"MALLESWARAM", 3⟩]
      = [⟨"A", 2, 2, 0, 0⟩, ⟨"MALLESWARAM", 3, 3, 5, 0⟩] := by
    rw [mergeSlot, passesState, hnp]
    norm_num [priorityPass, priorityStep, priorityUnits, hf1, hf2, hf3, hf4, hidx,
      setAll, initState, remainingStep, finalizeSurplus, outputRows, List.enum,
      List.enumFrom, Function.update_apply, hnenil]
  refine ⟨by decide, heval, ?_, by norm_num, by norm_num⟩
  rw [heval]
  norm_num

theorem outputRows_map_surGen_list (sites : List Site) (st : AllocState) :
    (outputRows sites st).map OutRow.surGen
      = (List.range sites.length).map st.surGen := by
  unfold outputRows
  rw [List.map_map]
  have h2 : sites.enum.map (OutRow.surGen ∘ fun p : ℕ × Site =>
      (⟨p.2.unit, p.2.cons, st.gen p.1, st.surGen p.1, st.surDem p.1⟩ : OutRow))
      = (sites.enum.map Prod.fst).map st.surGen := by
    rw [List.map_map]; rfl
  rw [h2, List.enum_map_fst]

/-- C6 (amended): if any generation remains after all rows of a slot are
processed, the entire remainder is recorded as `Surplus_Generation` on the
*last row of the slot in the input's original row order*
(`slot_df.index[-1]`), and every other row carries `Surplus_Generation = 0`.
When nothing remains, the whole column is `0`. -/
theorem mergeSlot_surplus_on_last_row (g : ℚ) (sites : List Site)
    (hnd : (sites.map (fun s => upKey s.unit)).Nodup)
    (hne : sites ≠ []) (hg : 0 ≤ g) :
    (mergeSlot g sites).map OutRow.surGen
      = (List.range sites.length).map (fun j =>
          if j = sites.length - 1
          then g - ((mergeSlot g sites).map OutRow.gen).sum else 0) := by
  rw [mergeSlot_eq_output hnd, outputRows_map_surGen_list, outputRows_map_gen,
    finalizeSurplus_gen]
  have hconsv := seqState_conserve g sites
  have hpool := seqState_pool_nonneg sites hg
  have hsum : sumIdx (seqState g sites).gen sites.length
      = g - (seqState g sites).pool := by linarith
  rw [hsum]
  apply List.map_congr_left
  intro j hj
  by_cases hpos : 0 < (seqState g sites).pool
  · have hfin : finalizeSurplus sites (seqState g sites)
        = { seqState g sites with
            surGen := Function.update (seqState g sites).surGen
              (sites.length - 1) (seqState g sites).pool
            pool := 0 } := by
      unfold finalizeSurplus
      rw [if_pos ⟨hpos, hne⟩]
    rw [hfin]
    show Function.update (seqState g sites).surGen (sites.length - 1)
        (seqState g sites).pool j
      = if j = sites.length - 1 then g - (g - (seqState g sites).pool) else 0
    rw [seqState_surGen]
    by_cases hj' : j = sites.length - 1
    · rw [hj', Function.update_same, if_pos rfl]
      ring
    · rw [Function.update_noteq hj', if_neg hj']
  · have hfin : finalizeSurplus sites (seqState g sites) = seqState g sites := by
      unfold finalizeSurplus
      rw [if_neg (fun hc => hpos hc.1)]
    have hz : (seqState g sites).pool = 0 := by linarith
    rw [hfin, seqState_surGen, hz]
    by_cases hj' : j = sites.length - 1
    · rw [if_pos hj']
      ring
    · rw [if_neg hj']

/-- Witness for the amended C6 at a concrete slot with a positive
remainder. -/
theorem mergeSlot_surplus_on_last_row_witness :
    (([⟨"A", 2⟩, ⟨"MALLESWARAM", 3⟩] : List Site).map (fun s => upKey s.unit)).Nodup
    ∧ (([⟨"A", 2⟩, ⟨"MALLESWARAM", 3⟩] : List Site) ≠ []) ∧ (0 ≤ (10 : ℚ))
    ∧ (mergeSlot 10 [⟨"A", 2⟩, ⟨"MALLESWARAM", 3⟩]).map OutRow.surGen
      = (List.range ([⟨"A", 2⟩, ⟨"MALLESWARAM", 3⟩] : List Site).length).map (fun j =>
          if j = ([⟨"A", 2⟩, ⟨"MALLESWARAM", 3⟩] : List Site).length - 1
          then 10 - ((mergeSlot 10 [⟨"A", 2⟩, ⟨"MALLESWARAM", 3⟩]).map OutRow.gen).sum
          else 0) :=
  ⟨by decide, by decide, by norm_num,
    mergeSlot_surplus_on_last_row 10 _ (by decide) (by decide) (by norm_num)⟩

/-! ## Banking settlement engine (`automate_settlement.py`, lines 74-114)

One calendar month's rows of the `monthly` sheet, in original row order.
The written columns `Settlement_with_Banking`,
`Surplus_Generation_After_Banking`, `Surplus_Demand_After_Banking` are again
modelled as functions from the row position. -/

/-- One monthly input row: composite `Unit` key, `Surplus_Generation`,
`Surplus_Demand` (the other aggregated columns do not enter the banking
computation). -/
structure BankRow where
  unit : String
  surGen : ℚ
  surDem : ℚ
  deriving DecidableEq, Repr

/-- `p.lower() in u.lower()`: the priority name occurs inside the composite
unit key (the `str.contains` regex of line 85, case-insensitive). -/
def bankPriorityMatch (u p : String) : Bool := containsKey (upKey u) (upKey p)

/-- Membership in the priority group (line 85). -/
def isPrioBank (u : String) : Bool :=
  priorityUnits.any (fun p => bankPriorityMatch u p)

/-- `priority_units.index(next(p for p in priority_units if p.lower() in
u.lower()))` (lines 88-90): the position of the first matching priority
name. -/
def bankRank (u : String) : ℕ :=
  priorityUnits.findIdx (fun p => bankPriorityMatch u p)

/-- The processing order of one month (lines 85-93): priority rows sorted by
their priority rank, then the remaining rows by descending
`Surplus_Demand`; pandas sorts modelled as stable sorts. -/
def bankOrder (rows : List BankRow) : List (ℕ × BankRow) :=
  (rows.enum.filter (fun p => isPrioBank p.2.unit)).insertionSort
      (fun a b => bankRank a.2.unit ≤ bankRank b.2.unit)
    ++ (rows.enum.filter (fun p => ! isPrioBank p.2.unit)).insertionSort
      (fun a b => b.2.surDem ≤ a.2.surDem)

/-- The mutable monthly state: the three written columns plus the running
pool `total_gen`. -/
structure BankState where
  settle : ℕ → ℚ
  sga : ℕ → ℚ
  sda : ℕ → ℚ
  pool : ℚ

/-- The settlement amount of one site (lines 96-103): full demand if the
pool covers `demand × 1.08`, else `pool × 0.92` if the pool is positive,
else `0`. -/
def settlementOf (pool demand : ℚ) : ℚ :=
  if pool ≥ demand * 1.08 then demand
  else if pool > 0 then pool * 0.92
  else 0

/-- The pool after one site (lines 96-103): debited by `demand × 1.08`,
zeroed on a partial settlement, otherwise unchanged. -/
def poolAfterStep (pool demand : ℚ) : ℚ :=
  if pool ≥ demand * 1.08 then pool - demand * 1.08
  else if pool > 0 then 0
  else pool

/-- One iteration of the settlement loop (lines 94-106). -/
def bankStep (st : BankState) (p : ℕ × BankRow) : BankState :=
  { settle := Function.update st.settle p.1 (settlementOf st.pool p.2.surDem)
    sga := Function.update st.sga p.1 (max (poolAfterStep st.pool p.2.surDem) 0)
    sda := Function.update st.sda p.1
      (max (p.2.surDem - settlementOf st.pool p.2.surDem) 0)
    pool := poolAfterStep st.pool p.2.surDem }

/-- Initial monthly state (lines 80-84): written columns zero, pool equal to
the month's total `Surplus_Generation`. -/
def bankInit (rows : List BankRow) : BankState :=
  { settle := fun _ => 0, sga := fun _ => 0, sda := fun _ => 0,
    pool := (rows.map BankRow.surGen).sum }

/-- Final monthly state after the settlement loop. -/
def bankFinal (rows : List BankRow) : BankState :=
  (bankOrder rows).foldl bankStep (bankInit rows)

/-- One output row of the banking settlement sheet. -/
structure BankOut where
  unit : String
  surGen : ℚ
  surDem : ℚ
  settle : ℚ
  sga : ℚ
  sda : ℚ
  deriving DecidableEq, Repr

/-- The banking settlement engine for one month
(`apply_monthly_banking_settlement`, lines 79-107), output in original row
order. -/
def applyMonthlyBankingSettlement (rows : List BankRow) : List BankOut :=
  rows.enum.map (fun p =>
    ⟨p.2.unit, p.2.surGen, p.2.surDem, (bankFinal rows).settle p.1,
      (bankFinal rows).sga p.1, (bankFinal rows).sda p.1⟩)

/-- Variant of `bankStep` that records the raw pool value without the
`max(total_gen, 0)` guard of line 105. -/
def bankStepNoClamp (st : BankState) (p : ℕ × BankRow) : BankState :=
  { settle := Function.update st.settle p.1 (settlementOf st.pool p.2.surDem)
    sga := Function.update st.sga p.1 (poolAfterStep st.pool p.2.surDem)
    sda := Function.update st.sda p.1
      (max (p.2.surDem - settlementOf st.pool p.2.surDem) 0)
    pool := poolAfterStep st.pool p.2.surDem }

/-- The banking engine with the unguarded pool recording. -/
def applyMonthlyBankingSettlementNoClamp (rows : List BankRow) : List BankOut :=
  rows.enum.map (fun p =>
    ⟨p.2.unit, p.2.surGen, p.2.surDem,
      ((bankOrder rows).foldl bankStepNoClamp (bankInit rows)).settle p.1,
      ((bankOrder rows).foldl bankStepNoClamp (bankInit rows)).sga p.1,
      ((bankOrder rows).foldl bankStepNoClamp (bankInit rows)).sda p.1⟩)

/-- The running pool `total_gen` after the first `k` sites of the month's
processing order. -/
def bankPoolAfter (rows : List BankRow) (k : ℕ) : ℚ :=
  (((bankOrder rows).take k).foldl bankStep (bankInit rows)).pool

/-! ## Facts about the banking order and fold -/

theorem mem_bankOrder_get? {rows : List BankRow} {p : ℕ × BankRow}
    (hp : p ∈ bankOrder rows) : rows.get? p.1 = some p.2 := by
  rcases List.mem_append.mp hp with h | h <;>
    exact mem_enum_get? (List.mem_filter.mp ((List.mem_insertionSort _).mp h)).1

theorem mem_bankOrder_mem_rows {rows : List BankRow} {p : ℕ × BankRow}
    (hp : p ∈ bankOrder rows) : p.2 ∈ rows :=
  List.get?_mem (mem_bankOrder_get? hp)

theorem bankOrder_idx_nodup (rows : List BankRow) :
    ((bankOrder rows).map Prod.fst).Nodup := by
  rw [bankOrder, List.map_append, List.nodup_append]
  refine ⟨?_, ?_, ?_⟩
  · have hperm : List.Perm
        (((rows.enum.filter (fun p => isPrioBank p.2.unit)).insertionSort
          (fun a b => bankRank a.2.unit ≤ bankRank b.2.unit)).map Prod.fst)
        ((rows.enum.filter (fun p => isPrioBank p.2.unit)).map Prod.fst) :=
      (List.perm_insertionSort _ _).map _
    exact hperm.nodup_iff.mpr (by
      have hsub : List.Sublist
          ((rows.enum.filter (fun p => isPrioBank p.2.unit)).map Prod.fst)
          (rows.enum.map Prod.fst) := (List.filter_sublist _).map _
      exact hsub.nodup (by rw [List.enum_map_fst]; exact List.nodup_range _))
  · have hperm : List.Perm
        (((rows.enum.filter (fun p => ! isPrioBank p.2.unit)).insertionSort
          (fun a b => b.2.surDem ≤ a.2.surDem)).map Prod.fst)
        ((rows.enum.filter (fun p => ! isPrioBank p.2.unit)).map Prod.fst) :=
      (List.perm_insertionSort _ _).map _
    exact hperm.nodup_iff.mpr (by
      have hsub : List.Sublist
          ((rows.enum.filter (fun p => ! isPrioBank p.2.unit)).map Prod.fst)
          (rows.enum.map Prod.fst) := (List.filter_sublist _).map _
      exact hsub.nodup (by rw [List.enum_map_fst]; exact List.nodup_range _))
  · intro i hi hj
    obtain ⟨p, hp, hp1⟩ := List.exists_of_mem_map hi
    obtain ⟨q, hq, hq1⟩ := List.exists_of_mem_map hj
    obtain ⟨hpe, hppr⟩ := List.mem_filter.mp ((List.mem_insertionSort _).mp hp)
    obtain ⟨hqe, hqpr⟩ := List.mem_filter.mp ((List.mem_insertionSort _).mp hq)
    have h1 := mem_enum_get? hpe
    have h2 := mem_enum_get? hqe
    rw [hp1] at h1
    rw [hq1] at h2
    have hpq : p.2 = q.2 := Option.some.inj (h1.symm.trans h2)
    rw [hpq] at hppr
    simp only [Bool.not_eq_true'] at hqpr
    rw [hqpr] at hppr
    cases hppr

theorem bankOrder_complete {rows : List BankRow} {p : ℕ × BankRow}
    (hp : p ∈ rows.enum) : p ∈ bankOrder rows := by
  rw [bankOrder]
  by_cases hprio : isPrioBank p.2.unit = true
  · exact List.mem_append_left _
      ((List.mem_insertionSort _).mpr (List.mem_filter.mpr ⟨hp, hprio⟩))
  · exact List.mem_append_right _
      ((List.mem_insertionSort _).mpr (List.mem_filter.mpr
        ⟨hp, by simp [Bool.eq_false_iff.mpr hprio]⟩))

theorem poolAfterStep_nonneg {pool demand : ℚ} (h : 0 ≤ pool) :
    0 ≤ poolAfterStep pool demand := by
  unfold poolAfterStep
  split_ifs with h1 h2 <;> linarith

theorem poolAfterStep_le {pool demand : ℚ} (_hp : 0 ≤ pool) (hd : 0 ≤ demand) :
    poolAfterStep pool demand ≤ pool := by
  unfold poolAfterStep
  split_ifs with h1 h2 <;> nlinarith

theorem settlementOf_le {pool demand : ℚ} (hd : 0 ≤ demand) :
    settlementOf pool demand ≤ demand := by
  unfold settlementOf
  split_ifs with h1 h2
  · exact le_refl demand
  · nlinarith
  · exact hd

theorem bankStep_untouched (st : BankState) {p : ℕ × BankRow} {i : ℕ}
    (h : p.1 ≠ i) :
    (bankStep st p).settle i = st.settle i ∧ (bankStep st p).sga i = st.sga i ∧
      (bankStep st p).sda i = st.sda i := by
  simp [bankStep, Function.update_noteq (Ne.symm h)]

theorem foldl_bankStep_untouched {items : List (ℕ × BankRow)} {i : ℕ}
    (h : ∀ p ∈ items, p.1 ≠ i) : ∀ st : BankState,
    (items.foldl bankStep st).settle i = st.settle i ∧
      (items.foldl bankStep st).sga i = st.sga i ∧
      (items.foldl bankStep st).sda i = st.sda i := by
  induction items with
  | nil => intro st; exact ⟨rfl, rfl, rfl⟩
  | cons p ps ih =>
      intro st
      rw [List.foldl_cons]
      obtain ⟨h1, h2, h3⟩ := ih (fun q hq => h q (by simp [hq])) (bankStep st p)
      obtain ⟨h4, h5, h6⟩ := bankStep_untouched st (h p (by simp))
      exact ⟨h1.trans h4, h2.trans h5, h3.trans h6⟩

theorem foldl_bankStep_pool_nonneg {items : List (ℕ × BankRow)} :
    ∀ {st : BankState}, 0 ≤ st.pool → 0 ≤ (items.foldl bankStep st).pool := by
  induction items with
  | nil => intro st h; exact h
  | cons p ps ih =>
      intro st h
      rw [List.foldl_cons]
      exact ih (poolAfterStep_nonneg h)

theorem bankStep_settle_self (st : BankState) (p : ℕ × BankRow) :
    (bankStep st p).settle p.1 = settlementOf st.pool p.2.surDem := by
  unfold bankStep
  exact Function.update_same _ _ _

set_option maxHeartbeats 1000000 in
/-- Every processed row's recorded settlement is the settlement formula
evaluated at some non-negative intermediate pool. -/
theorem foldl_bankStep_settle {items : List (ℕ × BankRow)} :
    ∀ {st : BankState}, (items.map Prod.fst).Nodup → 0 ≤ st.pool →
      ∀ p ∈ items, ∃ q : ℚ, 0 ≤ q ∧
        (items.foldl bankStep st).settle p.1 = settlementOf q p.2.surDem := by
  induction items with
  | nil => intro st _ _ p hp; cases hp
  | cons q qs ih =>
      intro st hnd hpool p hp
      rw [List.map_cons, List.nodup_cons] at hnd
      rw [List.foldl_cons]
      rcases List.mem_cons.mp hp with rfl | hp'
      · have hfresh : ∀ r ∈ qs, r.1 ≠ p.1 := by
          intro r hr h
          exact hnd.1 (h ▸ List.mem_map_of_mem Prod.fst hr)
        obtain ⟨h1, -, -⟩ := foldl_bankStep_untouched hfresh (bankStep st p)
        refine ⟨st.pool, hpool, ?_⟩
        rw [h1]
        exact bankStep_settle_self st p
      · exact ih hnd.2 (poolAfterStep_nonneg hpool) p hp'

/-- C3: one step of the banking settlement engine follows the three-way
rule — full settlement debiting the pool by `demand × 1.08`, else partial
settlement `pool × 0.92` zeroing the pool, else zero settlement — and on a
month with pool 100 and two priority-ordered sites of demand 50 each, the
first settles 50 leaving pool 46 and the second settles 42.32 leaving
pool 0. -/
theorem bankStep_cases_and_example :
    (∀ (st : BankState) (p : ℕ × BankRow),
      (st.pool ≥ p.2.surDem * 1.08 →
        (bankStep st p).settle p.1 = p.2.surDem ∧
          (bankStep st p).pool = st.pool - p.2.surDem * 1.08) ∧
      (¬ st.pool ≥ p.2.surDem * 1.08 → 0 < st.pool →
        (bankStep st p).settle p.1 = st.pool * 0.92 ∧ (bankStep st p).pool = 0) ∧
      (¬ st.pool ≥ p.2.surDem * 1.08 → ¬ 0 < st.pool →
        (bankStep st p).settle p.1 = 0 ∧ (bankStep st p).pool = st.pool)) ∧
    applyMonthlyBankingSettlement
        [⟨"MALLESWARAM (C2HT-136)", 100, 50⟩, ⟨"ELECTRONIC CITY (S13HT-87)", 0, 50⟩]
      = [⟨"MALLESWARAM (C2HT-136)", 100, 50, 50, 46, 0⟩,
         ⟨"ELECTRONIC CITY (S13HT-87)", 0, 50, 42.32, 0, 7.68⟩] := by
  constructor
  · intro st p
    refine ⟨fun h1 => ?_, fun h1 h2 => ?_, fun h1 h2 => ?_⟩
    · rw [bankStep_settle_self]
      unfold settlementOf
      rw [if_pos h1]
      refine ⟨rfl, ?_⟩
      show poolAfterStep st.pool p.2.surDem = st.pool - p.2.surDem * 1.08
      unfold poolAfterStep
      rw [if_pos h1]
    · rw [bankStep_settle_self]
      unfold settlementOf
      rw [if_neg h1, if_pos h2]
      refine ⟨rfl, ?_⟩
      show poolAfterStep st.pool p.2.surDem = 0
      unfold poolAfterStep
      rw [if_neg h1, if_pos h2]
    · rw [bankStep_settle_self]
      unfold settlementOf
      rw [if_neg h1, if_neg h2]
      refine ⟨rfl, ?_⟩
      show poolAfterStep st.pool p.2.surDem = st.pool
      unfold poolAfterStep
      rw [if_neg h1, if_neg h2]
  · have hord : bankOrder
        [⟨"MALLESWARAM (C2HT-136)", (100:ℚ), 50⟩, ⟨"ELECTRONIC CITY (S13HT-87)", 0, 50⟩]
        = [(0, ⟨"MALLESWARAM (C2HT-136)", 100, 50⟩),
           (1, ⟨"ELECTRONIC CITY (S13HT-87)", 0, 50⟩)] := by decide
    rw [applyMonthlyBankingSettlement, bankFinal, hord]
    norm_num [bankStep, bankInit, settlementOf, poolAfterStep, List.enum,
      List.enumFrom, Function.update_apply, max_def]

/-- Witness for the hypothesis-bearing cases of C3: the partial-settlement
case at pool 46, demand 50. -/
theorem bankStep_cases_witness :
    ¬ ((46 : ℚ) ≥ 50 * 1.08) ∧ (0 < (46 : ℚ)) ∧
    ((bankStep ⟨fun _ => 0, fun _ => 0, fun _ => 0, 46⟩ (0, ⟨"B", 0, 50⟩)).settle 0
        = 46 * 0.92 ∧
      (bankStep ⟨fun _ => 0, fun _ => 0, fun _ => 0, 46⟩ (0, ⟨"B", 0, 50⟩)).pool = 0) :=
  ⟨by norm_num, by norm_num,
    (bankStep_cases_and_example.1 ⟨fun _ => 0, fun _ => 0, fun _ => 0, 46⟩
      (0, ⟨"B", 0, 50⟩)).2.1 (by norm_num) (by norm_num)⟩

/-- C4: with non-negative monthly `Surplus_Generation` and `Surplus_Demand`
inputs, no site's banked settlement exceeds its pre-banking monthly
`Surplus_Demand`. -/
theorem banking_settlement_le_surplus_demand (rows : List BankRow)
    (h : ∀ r ∈ rows, 0 ≤ r.surGen ∧ 0 ≤ r.surDem) :
    ∀ out ∈ applyMonthlyBankingSettlement rows, out.settle ≤ out.surDem := by
  intro out hout
  rw [applyMonthlyBankingSettlement] at hout
  obtain ⟨p, hp, rfl⟩ := List.mem_map.mp hout
  have hmem : p ∈ bankOrder rows := bankOrder_complete hp
  have hpool0 : 0 ≤ (rows.map BankRow.surGen).sum := by
    apply List.sum_nonneg
    intro x hx
    obtain ⟨r, hr, rfl⟩ := List.exists_of_mem_map hx
    exact (h r hr).1
  have hpool1 : 0 ≤ (bankInit rows).pool := hpool0
  obtain ⟨q, hq0, hset⟩ := foldl_bankStep_settle
    (bankOrder_idx_nodup rows) hpool1 p hmem
  show (bankFinal rows).settle p.1 ≤ p.2.surDem
  rw [bankFinal, hset]
  exact settlementOf_le (h p.2 (List.snd_mem_of_mem_enum hp)).2

/-- Witness for C4 at a concrete one-site month. -/
theorem banking_settlement_le_surplus_demand_witness :
    (∀ r ∈ ([⟨"A", 0, 0⟩] : List BankRow), 0 ≤ r.surGen ∧ 0 ≤ r.surDem) ∧
    (∀ out ∈ applyMonthlyBankingSettlement [⟨"A", 0, 0⟩], out.settle ≤ out.surDem) :=
  ⟨by norm_num, banking_settlement_le_surplus_demand [⟨"A", 0, 0⟩] (by norm_num)⟩

theorem bankStep_eq_noClamp {st : BankState} (p : ℕ × BankRow) (h : 0 ≤ st.pool) :
    bankStep st p = bankStepNoClamp st p := by
  unfold bankStep bankStepNoClamp
  rw [max_eq_left (poolAfterStep_nonneg h)]

theorem foldl_bankStep_eq_noClamp {items : List (ℕ × BankRow)} :
    ∀ {st : BankState}, 0 ≤ st.pool →
      items.foldl bankStep st = items.foldl bankStepNoClamp st := by
  induction items with
  | nil => intro st _; rfl
  | cons p ps ih =>
      intro st h
      have hp' : 0 ≤ (bankStep st p).pool := poolAfterStep_nonneg h
      rw [List.foldl_cons, List.foldl_cons, ih hp', bankStep_eq_noClamp p h]

/-- C10 counterexample: with all `Surplus_Generation` inputs non-negative
but one negative `Surplus_Demand`, the running pool *increases* from one
site to the next (full settlement of a negative demand credits the pool by
`|demand| × 1.08`). -/
theorem banking_pool_increase_cex :
    (∀ r ∈ ([⟨"A", 10, 0⟩, ⟨"B", 0, -10⟩] : List BankRow), 0 ≤ r.surGen) ∧
    bankPoolAfter [⟨"A", 10, 0⟩, ⟨"B", 0, -10⟩] 1 = 10 ∧
    bankPoolAfter [⟨"A", 10, 0⟩, ⟨"B", 0, -10⟩] 2 = 20.8 ∧
    ¬ (bankPoolAfter [⟨"A", 10, 0⟩, ⟨"B", 0, -10⟩] 2
        ≤ bankPoolAfter [⟨"A", 10, 0⟩, ⟨"B", 0, -10⟩] 1) := by
  have hord : bankOrder [⟨"A", (10:ℚ), 0⟩, ⟨"B", 0, -10⟩]
      = [(0, ⟨"A", 10, 0⟩), (1, ⟨"B", 0, -10⟩)] := by decide
  have h1 : bankPoolAfter [⟨"A", 10, 0⟩, ⟨"B", 0, -10⟩] 1 = 10 := by
    rw [bankPoolAfter, hord]
    norm_num [bankStep, bankInit, settlementOf, poolAfterStep, List.take]
  have h2 : bankPoolAfter [⟨"A", 10, 0⟩, ⟨"B", 0, -10⟩] 2 = 20.8 := by
    rw [bankPoolAfter, hord]
    norm_num [bankStep, bankInit, settlementOf, poolAfterStep, List.take]
  refine ⟨by norm_num, h1, h2, ?_⟩
  rw [h1, h2]
  norm_num

/-- C10 (amended): within one month, if every input row's
`Surplus_Generation` *and* `Surplus_Demand` are non-negative, the running
pool stays non-negative after every site and never increases from one site
to the next, so the recorded `Surplus_Generation_After_Banking` equals the
raw pool value — the `max(total_gen, 0)` guard never alters it. -/
theorem banking_pool_invariant (rows : List BankRow)
    (h : ∀ r ∈ rows, 0 ≤ r.surGen ∧ 0 ≤ r.surDem) :
    (∀ k, 0 ≤ bankPoolAfter rows k) ∧
    (∀ k, bankPoolAfter rows (k + 1) ≤ bankPoolAfter rows k) ∧
    applyMonthlyBankingSettlement rows = applyMonthlyBankingSettlementNoClamp rows := by
  have hpool0 : 0 ≤ (bankInit rows).pool := by
    apply List.sum_nonneg
    intro x hx
    obtain ⟨r, hr, rfl⟩ := List.exists_of_mem_map hx
    exact (h r hr).1
  have ha : ∀ k, 0 ≤ bankPoolAfter rows k :=
    fun k => foldl_bankStep_pool_nonneg hpool0
  refine ⟨ha, ?_, ?_⟩
  · intro k
    by_cases hk : k < (bankOrder rows).length
    · have hget : (bankOrder rows)[k]? = some ((bankOrder rows).get ⟨k, hk⟩) :=
        List.getElem?_eq_getElem hk
      have htake : (bankOrder rows).take (k + 1)
          = (bankOrder rows).take k ++ [(bankOrder rows).get ⟨k, hk⟩] := by
        rw [List.take_succ, hget]
        rfl
      have hmem : (bankOrder rows).get ⟨k, hk⟩ ∈ bankOrder rows :=
        List.get_mem _ _ hk
      have hd : 0 ≤ ((bankOrder rows).get ⟨k, hk⟩).2.surDem :=
        (h _ (mem_bankOrder_mem_rows hmem)).2
      rw [bankPoolAfter, htake, List.foldl_append]
      exact poolAfterStep_le (ha k) hd
    · rw [bankPoolAfter, bankPoolAfter,
        List.take_of_length_le (by omega), List.take_of_length_le (by omega)]
  · rw [applyMonthlyBankingSettlement, applyMonthlyBankingSettlementNoClamp,
      bankFinal, foldl_bankStep_eq_noClamp hpool0]

/-- Witness for the amended C10 at a concrete one-site month. -/
theorem banking_pool_invariant_witness :
    (∀ r ∈ ([⟨"A", 10, 5⟩] : List BankRow), 0 ≤ r.surGen ∧ 0 ≤ r.surDem) ∧
    0 ≤ bankPoolAfter [⟨"A", 10, 5⟩] 1 ∧
    bankPoolAfter [⟨"A", 10, 5⟩] 1 ≤ bankPoolAfter [⟨"A", 10, 5⟩] 0 ∧
    applyMonthlyBankingSettlement [⟨"A", 10, 5⟩]
      = applyMonthlyBankingSettlementNoClamp [⟨"A", 10, 5⟩] :=
  ⟨by norm_num,
    (banking_pool_invariant [⟨"A", 10, 5⟩] (by norm_num)).1 1,
    (banking_pool_invariant [⟨"A", 10, 5⟩] (by norm_num)).2.1 0,
    (banking_pool_invariant [⟨"A", 10, 5⟩] (by norm_num)).2.2⟩

/-! ## Interval expander (`split_hourly_to_15min`,
`automate_consumption_data.py` lines 171-194)

Timestamps are minutes since an epoch; `new_time.date()` is `dt / 1440` and
`new_time.time()` is `dt % 1440`. -/

/-- One hourly consumption row of the `hourly1` sheet. -/
structure HourRow where
  dt : ℕ
  cons : ℚ
  unit : String
  tod : String
  deriving DecidableEq, Repr

/-- One 15-minute output row of the `15_mins` sheet. -/
structure QuarterRow where
  date : ℕ
  time : ℕ
  cons : ℚ
  unit : String
  tod : String
  deriving DecidableEq, Repr

/-- The 1-to-4 fan-out of one hourly row (lines 181-191): four rows at
offsets `15*i` minutes, each with a quarter of the consumption, the unit
and the already-computed `ToD_Slot` copied unchanged. -/
def expandRow (r : HourRow) : List QuarterRow :=
  (List.range 4).map (fun i =>
    ⟨(r.dt + 15 * i) / 1440, (r.dt + 15 * i) % 1440, r.cons / 4, r.unit, r.tod⟩)

/-- `split_hourly_to_15min`: every hourly row is expanded. -/
def splitHourlyTo15min (rows : List HourRow) : List QuarterRow :=
  rows.flatMap expandRow

theorem offset_mod60 (x : ℕ) (hx : x % 60 = 0) (o : ℕ) (ho : o < 60) :
    (x + o) % 60 = o := by
  omega

/-- C7: a parent row on the hour becomes exactly four 15-minute rows at
minute offsets 0, 15, 30 and 45 of the parent hour, on the parent's date,
each carrying a quarter of the parent consumption and the parent's
`ToD_Slot` unchanged; the four children's consumption sums back to the
parent's. -/
theorem splitHourly_quarters (r : HourRow) (h : r.dt % 60 = 0) :
    splitHourlyTo15min [r] = expandRow r ∧
    expandRow r
      = [⟨r.dt / 1440, r.dt % 1440, r.cons / 4, r.unit, r.tod⟩,
         ⟨r.dt / 1440, r.dt % 1440 + 15, r.cons / 4, r.unit, r.tod⟩,
         ⟨r.dt / 1440, r.dt % 1440 + 30, r.cons / 4, r.unit, r.tod⟩,
         ⟨r.dt / 1440, r.dt % 1440 + 45, r.cons / 4, r.unit, r.tod⟩] ∧
    ((expandRow r).map QuarterRow.cons).sum = r.cons ∧
    (expandRow r).length = 4 ∧
    (expandRow r).map (fun c => c.time % 60) = [0, 15, 30, 45] := by
  have h0 : List.range 4 = [0, 1, 2, 3] := rfl
  have h1440 : r.dt % 1440 % 60 = 0 := by
    rw [Nat.mod_mod_of_dvd _ (by norm_num : (60 : ℕ) ∣ 1440)]
    exact h
  have hb : r.dt % 1440 ≤ 1380 := by omega
  obtain ⟨q, m, hqm, hmlt, hm60⟩ :
      ∃ q m, r.dt = 1440 * q + m ∧ m ≤ 1380 ∧ m % 60 = 0 :=
    ⟨r.dt / 1440, r.dt % 1440, by omega, hb, h1440⟩
  have e0 : (r.dt + 15 * 0) % 1440 = r.dt % 1440 := by omega
  have e1 : (r.dt + 15 * 1) / 1440 = r.dt / 1440 ∧ (r.dt + 15 * 1) % 1440 = r.dt % 1440 + 15 := by
    rw [hqm]; omega
  have e2 : (r.dt + 15 * 2) / 1440 = r.dt / 1440 ∧ (r.dt + 15 * 2) % 1440 = r.dt % 1440 + 30 := by
    rw [hqm]; omega
  have e3 : (r.dt + 15 * 3) / 1440 = r.dt / 1440 ∧ (r.dt + 15 * 3) % 1440 = r.dt % 1440 + 45 := by
    rw [hqm]; omega
  refine ⟨by simp [splitHourlyTo15min], ?_, ?_, by simp [expandRow], ?_⟩
  · simp only [expandRow, h0, List.map_cons, List.map_nil, QuarterRow.mk.injEq]
    norm_num [e1.1, e1.2, e2.1, e2.2, e3.1, e3.2]
  · simp only [expandRow, h0, List.map_cons, List.map_nil, List.map_map,
      List.sum_cons, List.sum_nil]
    show r.cons / 4 + (r.cons / 4 + (r.cons / 4 + (r.cons / 4 + 0))) = r.cons
    ring
  · simp only [expandRow, h0, List.map_cons, List.map_nil, List.map_map]
    show [(r.dt + 15 * 0) % 1440 % 60, (r.dt + 15 * 1) % 1440 % 60,
      (r.dt + 15 * 2) % 1440 % 60, (r.dt + 15 * 3) % 1440 % 60] = [0, 15, 30, 45]
    rw [e0, e1.2, e2.2, e3.2]
    simp only [List.cons.injEq, and_true]
    exact ⟨h1440, offset_mod60 _ h1440 15 (by norm_num),
      offset_mod60 _ h1440 30 (by norm_num), offset_mod60 _ h1440 45 (by norm_num)⟩

/-- Witness for C7 at a concrete hourly row (10:00, consumption 8). -/
theorem splitHourly_quarters_witness :
    (600 % 60 = 0) ∧
    (splitHourlyTo15min [⟨600, 8, "X", "Day Normal"⟩]
        = expandRow ⟨600, 8, "X", "Day Normal"⟩ ∧
      expandRow (⟨600, 8, "X", "Day Normal"⟩ : HourRow)
        = [⟨600 / 1440, 600 % 1440, 8 / 4, "X", "Day Normal"⟩,
           ⟨600 / 1440, 600 % 1440 + 15, 8 / 4, "X", "Day Normal"⟩,
           ⟨600 / 1440, 600 % 1440 + 30, 8 / 4, "X", "Day Normal"⟩,
           ⟨600 / 1440, 600 % 1440 + 45, 8 / 4, "X", "Day Normal"⟩] ∧
      ((expandRow (⟨600, 8, "X", "Day Normal"⟩ : HourRow)).map QuarterRow.cons).sum = 8 ∧
      (expandRow (⟨600, 8, "X", "Day Normal"⟩ : HourRow)).length = 4 ∧
      (expandRow (⟨600, 8, "X", "Day Normal"⟩ : HourRow)).map (fun c => c.time % 60)
        = [0, 15, 30, 45]) :=
  ⟨by decide, splitHourly_quarters ⟨600, 8, "X", "Day Normal"⟩ (by decide)⟩

/-! ## Generation alignment (`merge_inverter_data` lines 53-62 and
`aggregate_15min` lines 84-99 of `automate_generation_data.py`)

One inverter file is a list of (timestamp, `Day Gen (KWh)`) readings in the
file's row order; timestamps are minutes since an epoch.  Lines 55-60
replace the reading column by consecutive differences
`C[j] = B[j] - B[j+1]`, keeping the final reading `C[-1] = B[-1]`; the
merged rows are then resampled into 15-minute buckets by summation. -/

/-- One valid reading row: timestamp (minutes) and `Day Gen (KWh)`. -/
structure GenReading where
  t : ℕ
  v : ℚ
  deriving DecidableEq, Repr

/-- The per-file difference transform of lines 55-60. -/
def diffRows : List GenReading → List GenReading
  | [] => []
  | [r] => [r]
  | r :: r2 :: rest => ⟨r.t, r.v - r2.v⟩ :: diffRows (r2 :: rest)

/-- `merge_inverter_data`: every file's valid rows are transformed and
concatenated (the subsequent sort by timestamp does not affect any
per-bucket sum). -/
def mergeInverterData (files : List (List GenReading)) : List GenReading :=
  files.flatMap diffRows

/-- `aggregate_15min`: the resampled value of one 15-minute bucket is the
sum of the merged rows falling into it (an absent bucket sums to 0, as
`resample(...).sum()` yields). -/
def aggregate15min (rows : List GenReading) (slot : ℕ) : ℚ :=
  ((rows.filter (fun r => r.t / 15 == slot)).map GenReading.v).sum

/-- C9 counterexample: a single file with the non-negative readings
`[(10:00, 0), (10:20, 5)]` produces the difference row `(10:00, −5)`, so
the 10:00 15-minute bucket aggregates to −5 < 0. -/
theorem aggregate15_negative_cex :
    (∀ f ∈ ([[⟨600, 0⟩, ⟨620, 5⟩]] : List (List GenReading)), ∀ r ∈ f, 0 ≤ r.v) ∧
    mergeInverterData [[⟨600, 0⟩, ⟨620, 5⟩]] = [⟨600, -5⟩, ⟨620, 5⟩] ∧
    aggregate15min (mergeInverterData [[⟨600, 0⟩, ⟨620, 5⟩]]) 40 = -5 ∧
    ¬ (0 ≤ aggregate15min (mergeInverterData [[⟨600, 0⟩, ⟨620, 5⟩]]) 40) := by
  have hm : mergeInverterData [[⟨600, 0⟩, ⟨620, 5⟩]] = [⟨600, -5⟩, ⟨620, 5⟩] := by
    norm_num [mergeInverterData, diffRows]
  have ha : aggregate15min (mergeInverterData [[⟨600, 0⟩, ⟨620, 5⟩]]) 40 = -5 := by
    rw [hm]
    norm_num [aggregate15min]
  exact ⟨by norm_num, hm, ha, by rw [ha]; norm_num⟩

theorem diffRows_nonneg : ∀ (f : List GenReading),
    (∀ r ∈ f, 0 ≤ r.v) → List.Chain' (fun a b => b.v ≤ a.v) f →
    ∀ r ∈ diffRows f, 0 ≤ r.v := by
  intro f
  induction f with
  | nil => intro _ _ r hr; cases hr
  | cons r1 rest ih =>
      intro hv hchain r hr
      cases rest with
      | nil =>
          rw [diffRows] at hr
          rcases List.mem_singleton.mp hr with rfl
          exact hv r (by simp)
      | cons r2 rest2 =>
          rw [diffRows] at hr
          obtain ⟨hle, hchain2⟩ := List.chain'_cons.mp hchain
          rcases List.mem_cons.mp hr with rfl | hr'
          · show 0 ≤ r1.v - r2.v
            linarith
          · exact ih (fun s hs => hv s (by simp [hs])) hchain2 r hr'

/-- C9 (amended): every 15-minute aggregate is non-negative provided each
file's readings are non-negative *and non-increasing in file row order*
(the cumulative day total read newest-first, which the difference transform
of lines 55-60 presupposes). -/
theorem aggregate15_nonneg_of_antitone (files : List (List GenReading))
    (hv : ∀ f ∈ files, ∀ r ∈ f, 0 ≤ r.v)
    (hmono : ∀ f ∈ files, List.Chain' (fun a b => b.v ≤ a.v) f) :
    ∀ slot, 0 ≤ aggregate15min (mergeInverterData files) slot := by
  intro slot
  apply List.sum_nonneg
  intro x hx
  obtain ⟨r, hr, rfl⟩ := List.exists_of_mem_map hx
  have hr2 := List.mem_filter.mp hr
  obtain ⟨f, hf, hrf⟩ := List.mem_flatMap.mp hr2.1
  exact diffRows_nonneg f (hv f hf) (hmono f hf) r hrf

/-- Witness for the amended C9: one file with non-increasing non-negative
readings. -/
theorem aggregate15_nonneg_witness :
    (∀ f ∈ ([[⟨600, 5⟩, ⟨620, 3⟩]] : List (List GenReading)), ∀ r ∈ f, 0 ≤ r.v) ∧
    (∀ f ∈ ([[⟨600, 5⟩, ⟨620, 3⟩]] : List (List GenReading)),
      List.Chain' (fun a b => b.v ≤ a.v) f) ∧
    0 ≤ aggregate15min (mergeInverterData [[⟨600, 5⟩, ⟨620, 3⟩]]) 40 :=
  ⟨by decide, by norm_num [List.chain'_cons],
    aggregate15_nonneg_of_antitone [[⟨600, 5⟩, ⟨620, 3⟩]] (by decide)
      (by norm_num [List.chain'_cons]) 40⟩

/-! ## ToD date regrouping (`merge_hourly_to_tod`,
`automate_consumption_data.py` lines 149-159)

The date-reassignment applied before the per-date ToD aggregation: rows of
hours 22-23 move to the next calendar date, and the late rows landing on
the (post-shift) last date wrap around to the first date. -/

/-- One hourly row entering `merge_hourly_to_tod`: calendar date (day
number), hour of day, unit and consumption. -/
structure TodRow where
  date : ℕ
  hour : ℕ
  unit : String
  cons : ℚ
  deriving DecidableEq, Repr

/-- `df["Hour"].isin([22, 23])` (line 151). -/
def isLate (r : TodRow) : Bool := r.hour == 22 || r.hour == 23

/-- `pandas .max()` over a date column. -/
def maxD (l : List ℕ) : ℕ := l.foldl max 0

/-- `pandas .min()` over a (nonempty) date column. -/
def minD : List ℕ → ℕ
  | [] => 0
  | x :: xs => xs.foldl min x

/-- Lines 151-155: split off the hour-22/23 rows, advance their date by one
day, and re-concatenate. -/
def shiftLateRows (rows : List TodRow) : List TodRow :=
  rows.filter (fun r => ! isLate r)
    ++ (rows.filter isLate).map (fun r => { r with date := r.date + 1 })

/-- Lines 149-159: the full date regrouping of `merge_hourly_to_tod` —
shift the late rows forward, then move the late rows of the resulting last
date back to the resulting first date. -/
def todShiftDates (rows : List TodRow) : List TodRow :=
  let df := shiftLateRows rows
  let firstDate := minD (df.map TodRow.date)
  let lastDate := maxD (df.map TodRow.date)
  df.map (fun r => if r.date = lastDate ∧ isLate r then { r with date := firstDate } else r)

theorem foldl_max_le {l : List ℕ} : ∀ {a b : ℕ}, a ≤ b → (∀ x ∈ l, x ≤ b) →
    l.foldl max a ≤ b := by
  induction l with
  | nil => intro a b ha _; exact ha
  | cons x xs ih =>
      intro a b ha h
      rw [List.foldl_cons]
      exact ih (max_le ha (h x (by simp))) (fun y hy => h y (by simp [hy]))

theorem le_foldl_max_init {l : List ℕ} : ∀ a : ℕ, a ≤ l.foldl max a := by
  induction l with
  | nil => intro a; exact le_refl a
  | cons x xs ih =>
      intro a
      rw [List.foldl_cons]
      exact le_trans (le_max_left a x) (ih (max a x))

theorem mem_le_foldl_max {l : List ℕ} {x : ℕ} (h : x ∈ l) : ∀ a : ℕ, x ≤ l.foldl max a := by
  induction l with
  | nil => cases h
  | cons y ys ih =>
      intro a
      rw [List.foldl_cons]
      rcases List.mem_cons.mp h with rfl | h'
      · exact le_trans (le_max_right a x) (le_foldl_max_init (max a x))
      · exact ih h' (max a y)

theorem le_maxD {l : List ℕ} {x : ℕ} (h : x ∈ l) : x ≤ maxD l :=
  mem_le_foldl_max h 0

theorem maxD_le {l : List ℕ} {b : ℕ} (h : ∀ x ∈ l, x ≤ b) : maxD l ≤ b :=
  foldl_max_le (Nat.zero_le b) h

theorem foldl_min_le_init {l : List ℕ} : ∀ a : ℕ, l.foldl min a ≤ a := by
  induction l with
  | nil => intro a; exact le_refl a
  | cons x xs ih =>
      intro a
      rw [List.foldl_cons]
      exact le_trans (ih (min a x)) (min_le_left a x)

theorem foldl_min_le_mem {l : List ℕ} {x : ℕ} (h : x ∈ l) : ∀ a : ℕ, l.foldl min a ≤ x := by
  induction l with
  | nil => cases h
  | cons y ys ih =>
      intro a
      rw [List.foldl_cons]
      rcases List.mem_cons.mp h with rfl | h'
      · exact le_trans (foldl_min_le_init (min a x)) (min_le_right a x)
      · exact ih h' (min a y)

theorem le_foldl_min {l : List ℕ} : ∀ {a b : ℕ}, b ≤ a → (∀ x ∈ l, b ≤ x) →
    b ≤ l.foldl min a := by
  induction l with
  | nil => intro a b ha _; exact ha
  | cons x xs ih =>
      intro a b ha h
      rw [List.foldl_cons]
      exact ih (le_min ha (h x (by simp))) (fun y hy => h y (by simp [hy]))

theorem minD_le {l : List ℕ} {x : ℕ} (h : x ∈ l) : minD l ≤ x := by
  cases l with
  | nil => cases h
  | cons y ys =>
      rcases List.mem_cons.mp h with rfl | h'
      · exact foldl_min_le_init x
      · exact foldl_min_le_mem h' y

theorem le_minD {l : List ℕ} {b : ℕ} (hne : l ≠ []) (h : ∀ x ∈ l, b ≤ x) :
    b ≤ minD l := by
  cases l with
  | nil => exact absurd rfl hne
  | cons y ys => exact le_foldl_min (h y (by simp)) (fun x hx => h x (by simp [hx]))

/-- C8: in the ToD-merge stage, provided the dataset's last date has a late
(hour 22-23) row and its first date has a non-late row, the date regrouping
sends every late row to the next calendar date — except the late rows of the
last date, which wrap to the first date — and leaves every other row's date
unchanged. -/
theorem todShift_dates (rows : List TodRow)
    (hlate : ∃ r ∈ rows, r.date = maxD (rows.map TodRow.date) ∧ isLate r = true)
    (hearly : ∃ r ∈ rows, r.date = minD (rows.map TodRow.date) ∧ isLate r = false) :
    todShiftDates rows
      = rows.filter (fun r => ! isLate r)
        ++ (rows.filter isLate).map (fun r =>
            if r.date = maxD (rows.map TodRow.date)
            then { r with date := minD (rows.map TodRow.date) }
            else { r with date := r.date + 1 }) := by
  obtain ⟨rl, hrl, hrlD, hrlLate⟩ := hlate
  obtain ⟨re, hre, hreD, hreEarly⟩ := hearly
  have hREmem : re ∈ shiftLateRows rows :=
    List.mem_append_left _ (List.mem_filter.mpr ⟨hre, by simp [hreEarly]⟩)
  have hREdate : re.date ∈ (shiftLateRows rows).map TodRow.date :=
    List.mem_map_of_mem TodRow.date hREmem
  have hmax : maxD ((shiftLateRows rows).map TodRow.date)
      = maxD (rows.map TodRow.date) + 1 := by
    apply le_antisymm
    · apply maxD_le
      intro x hx
      obtain ⟨r, hr, rfl⟩ := List.exists_of_mem_map hx
      rcases List.mem_append.mp hr with hk | hs
      · have hmem : r ∈ rows := List.mem_of_mem_filter hk
        have := le_maxD (List.mem_map_of_mem TodRow.date hmem)
        omega
      · obtain ⟨s, hs2, rfl⟩ := List.exists_of_mem_map hs
        have hmem : s ∈ rows := List.mem_of_mem_filter hs2
        have := le_maxD (List.mem_map_of_mem TodRow.date hmem)
        show s.date + 1 ≤ maxD (rows.map TodRow.date) + 1
        omega
    · apply le_maxD
      have h1 : ({rl with date := rl.date + 1} : TodRow) ∈ shiftLateRows rows :=
        List.mem_append_right _
          (List.mem_map_of_mem _ (List.mem_filter.mpr ⟨hrl, hrlLate⟩))
      have h2 := List.mem_map_of_mem TodRow.date h1
      show maxD (rows.map TodRow.date) + 1 ∈ (shiftLateRows rows).map TodRow.date
      rw [← hrlD]
      exact h2
  have hmin : minD ((shiftLateRows rows).map TodRow.date)
      = minD (rows.map TodRow.date) := by
    apply le_antisymm
    · rw [← hreD]
      exact minD_le hREdate
    · apply le_minD (List.ne_nil_of_mem hREdate)
      intro x hx
      obtain ⟨r, hr, rfl⟩ := List.exists_of_mem_map hx
      rcases List.mem_append.mp hr with hk | hs
      · exact minD_le (List.mem_map_of_mem TodRow.date (List.mem_of_mem_filter hk))
      · obtain ⟨s, hs2, rfl⟩ := List.exists_of_mem_map hs
        have := minD_le (List.mem_map_of_mem TodRow.date (List.mem_of_mem_filter hs2))
        show minD (rows.map TodRow.date) ≤ s.date + 1
        omega
  simp only [todShiftDates]
  rw [hmax, hmin, shiftLateRows, List.map_append, List.map_map]
  congr 1
  · have hpt : ∀ r ∈ rows.filter (fun r => ! isLate r),
        (if r.date = maxD (rows.map TodRow.date) + 1 ∧ isLate r
          then { r with date := minD (rows.map TodRow.date) } else r) = r := by
      intro r hr
      have hnl : isLate r = false := by
        simpa using (List.mem_filter.mp hr).2
      rw [if_neg]
      rintro ⟨-, hc⟩
      rw [hnl] at hc
      cases hc
    rw [List.map_congr_left hpt]
    exact List.map_id _
  · apply List.map_congr_left
    intro s hs
    have hl : isLate s = true := (List.mem_filter.mp hs).2
    rcases s with ⟨d, hh, u, c⟩
    have hiso : isLate ⟨d + 1, hh, u, c⟩ = true := hl
    by_cases hd : d = maxD (rows.map TodRow.date)
    · subst hd
      simp [Function.comp, hiso]
    · have hd1 : ¬ (d + 1 = maxD (rows.map TodRow.date) + 1) := by omega
      simp [Function.comp, hiso, hd, hd1]

/-- Witness for C8 on a concrete three-row dataset spanning two dates. -/
theorem todShift_dates_witness :
    (∃ r ∈ ([⟨1, 10, "A", 5⟩, ⟨2, 22, "A", 3⟩, ⟨2, 9, "A", 1⟩] : List TodRow),
      r.date = maxD (([⟨1, 10, "A", 5⟩, ⟨2, 22, "A", 3⟩, ⟨2, 9, "A", 1⟩] : List TodRow).map TodRow.date)
        ∧ isLate r = true) ∧
    (∃ r ∈ ([⟨1, 10, "A", 5⟩, ⟨2, 22, "A", 3⟩, ⟨2, 9, "A", 1⟩] : List TodRow),
      r.date = minD (([⟨1, 10, "A", 5⟩, ⟨2, 22, "A", 3⟩, ⟨2, 9, "A", 1⟩] : List TodRow).map TodRow.date)
        ∧ isLate r = false) ∧
    todShiftDates [⟨1, 10, "A", 5⟩, ⟨2, 22, "A", 3⟩, ⟨2, 9, "A", 1⟩]
      = ([⟨1, 10, "A", 5⟩, ⟨2, 22, "A", 3⟩, ⟨2, 9, "A", 1⟩] : List TodRow).filter (fun r => ! isLate r)
        ++ (([⟨1, 10, "A", 5⟩, ⟨2, 22, "A", 3⟩, ⟨2, 9, "A", 1⟩] : List TodRow).filter isLate).map (fun r =>
            if r.date = maxD (([⟨1, 10, "A", 5⟩, ⟨2, 22, "A", 3⟩, ⟨2, 9, "A", 1⟩] : List TodRow).map TodRow.date)
            then { r with date := minD (([⟨1, 10, "A", 5⟩, ⟨2, 22, "A", 3⟩, ⟨2, 9, "A", 1⟩] : List TodRow).map TodRow.date) }
            else { r with date := r.date + 1 }) :=
  ⟨by decide, by decide,
    todShift_dates [⟨1, 10, "A", 5⟩, ⟨2, 22, "A", 3⟩, ⟨2, 9, "A", 1⟩] (by decide) (by decide)⟩
